import Mathlib

/-!
Verification of the bit-level integer codecs of `src/AS_UTL/bitEncodings.H`
(unary, generalized unary, Elias gamma, Elias delta, Fibonacci/Zeckendorf).

The codecs operate on a bit-addressable array of 64-bit words through three
external primitives declared in `bitPacking.H` / `bitOperations.H` and the
Fibonacci table defined in a separate `.C` file; none of those are part of the
sources, so they are modelled here from the specification's description of
their interface (each such definition carries a `Modelled from the spec:`
comment).  The backing store is modelled as the conceptual bit sequence the
spec describes: a function from absolute bit index to bit value, bits within a
word most-significant first.  Machine words are modelled as `Nat` with
explicit `2 ^ w` bounds where width matters.

The decoders of the source scan the array with `while` loops whose
termination depends on the data (a unary code with no terminating one-bit
never stops), so each decoder takes an explicit fuel argument and returns
`Option`; `none` means the scan did not finish within `fuel` 64-bit windows
(resp. bit reads).  All encoders are total functions, as in the source.
-/

/-- The caller-owned bit array: absolute bit index (MSB-first within each
64-bit word) to bit value.  The spec's BitArray data model. -/
abbrev BitArr := Nat → Bool

/-- Modelled from the spec: `setField`/`setDecodedValue` of `bitPacking.H`
(not under `src/`) — "writes `value` as `width` MSB-first bits starting at
`bitPos`".  Bit `pos + i` (for `i < siz`) receives bit `siz - 1 - i` of
`val`; as in the kmer implementation, bits of `val` above `siz` are ignored
(the value is masked to the field width).  Other bits are untouched. -/
def setDecodedValue (ptr : BitArr) (pos siz val : Nat) : BitArr :=
  fun i => if pos ≤ i ∧ i < pos + siz then Nat.testBit val (pos + siz - 1 - i) else ptr i

/-- Modelled from the spec: `getField`/`getDecodedValue` of `bitPacking.H`
(not under `src/`) — "reads `width` MSB-first bits starting at `bitPos`".
The first bit read is the most significant of the result. -/
def getDecodedValue (ptr : BitArr) (pos siz : Nat) : Nat :=
  match siz with
  | 0 => 0
  | w + 1 => (if ptr pos then 2 ^ w else 0) + getDecodedValue ptr (pos + 1) w

/-- Fuel-indexed helper for `logBaseTwo64`: counts how many times the argument
can be halved before reaching zero.  Structural recursion on the fuel keeps
the definition kernel-computable; `fuel ≥ x` always suffices. -/
def log2fuel (fuel x : Nat) : Nat :=
  match fuel with
  | 0 => 0
  | f + 1 => if x = 0 then 0 else log2fuel f (x / 2) + 1

/-- Modelled from the spec: the "position of highest set bit / integer-log2
primitive over a 64-bit word" of `bitOperations.H` (not under `src/`).  The
position is counted from 1 (`logBaseTwo64 1 = 1`, `logBaseTwo64 0 = 0`): the
unary decoder adds `64 - logBaseTwo64 enc` zero bits, and the spec says this
must equal the count of leading zero bits of the 64-bit window, which pins
this 1-based convention (the kmer primitive shifts right until zero,
counting the shifts). -/
def logBaseTwo64 (x : Nat) : Nat := log2fuel x x

/-!  ## Unary coder (`setUnaryEncodedNumber` / `getUnaryEncodedNumber`)  -/

/-- The `while (val >= 64)` loop of `setUnaryEncodedNumber`: it stores a
zero 64-bit word and advances by one word per iteration, so it runs exactly
`⌊val/64⌋` times; `k` is the number of iterations still to run. -/
def setUnaryZeroWords (ptr : BitArr) (pos : Nat) : Nat → BitArr
  | 0 => ptr
  | k + 1 => setUnaryZeroWords (setDecodedValue ptr pos 64 0) (pos + 64) k

/-- `setUnaryEncodedNumber(ptr, pos, siz, val)`: stores `val` zero bits and a
terminating one bit; returns the new array and the reported `*siz`.  `*siz`
is assigned `val + 1` before the loop (the loop's `siz += 64` advances the
out-pointer itself, not the stored value, and nothing reads it after — a
no-op on the result).  After the loop the remaining `val % 64` zero bits and
the terminator are stored as one field of width `val % 64 + 1` holding the
value 1. -/
def setUnaryEncodedNumber (ptr : BitArr) (pos val : Nat) : BitArr × Nat :=
  (setDecodedValue (setUnaryZeroWords ptr pos (val / 64)) (pos + 64 * (val / 64))
      (val % 64 + 1) 1,
   val + 1)

/-- The scanning loop of `getUnaryEncodedNumber`: reads 64-bit windows while
they are all zero, then uses `logBaseTwo64` on the first nonzero window.
`val` is the running zero count, `fuel` bounds the number of windows read. -/
def getUnaryLoop (ptr : BitArr) (pos val : Nat) : Nat → Option (Nat × Nat)
  | 0 => none
  | fuel + 1 =>
    if getDecodedValue ptr pos 64 = 0 then
      getUnaryLoop ptr (pos + 64) (val + 64) fuel
    else
      some (val + (64 - logBaseTwo64 (getDecodedValue ptr pos 64)),
            val + (64 - logBaseTwo64 (getDecodedValue ptr pos 64)) + 1)

/-- `getUnaryEncodedNumber(ptr, pos, siz)`: returns `(val, *siz)` with
`*siz = val + 1`, or `none` if no one-bit was found within `fuel` windows. -/
def getUnaryEncodedNumber (ptr : BitArr) (pos fuel : Nat) : Option (Nat × Nat) :=
  getUnaryLoop ptr pos 0 fuel

/-!  ## Generalized unary coder  -/

/-- `static const uint64 _genunary_start = 3`. -/
def _genunary_start : Nat := 3

/-- `static const uint64 _genunary_step = 2`. -/
def _genunary_step : Nat := 2

/-- The prefix-search loop of `setGeneralizedUnaryEncodedNumber`:
`while (n <= val) { val -= n; w += step; n = 1 << w; m++ }` with
`n = 1 <<< w = 2 ^ w`.  Returns the final `(val, m, w)`. -/
def genunarySearch (val m w : Nat) : Nat × Nat × Nat :=
  if 2 ^ w ≤ val then genunarySearch (val - 2 ^ w) (m + 1) (w + _genunary_step)
  else (val, m, w)
termination_by val
decreasing_by
  rename_i h
  exact Nat.sub_lt (Nat.lt_of_lt_of_le (Nat.pos_pow_of_pos w (by omega)) h)
    (Nat.pos_pow_of_pos w (by omega))

/-- The bucket index `m` found by the search, starting from
`m = 0, w = _genunary_start` as the encoder does. -/
def genunaryBucket (val : Nat) : Nat := (genunarySearch val 0 _genunary_start).2.1

/-- The residual left in `val` after the search subtracted the implicit
thresholds `2 ^ w(i)`, `i < m`. -/
def genunaryResidual (val : Nat) : Nat := (genunarySearch val 0 _genunary_start).1

/-- `setGeneralizedUnaryEncodedNumber(ptr, pos, siz, val)`: stores `unary(m)`
then the residual in a `w`-bit field at `pos + *siz`; reports
`*siz = m + 1 + w`. -/
def setGeneralizedUnaryEncodedNumber (ptr : BitArr) (pos val : Nat) : BitArr × Nat :=
  (setDecodedValue (setUnaryEncodedNumber ptr pos (genunaryBucket val)).1
      (pos + (setUnaryEncodedNumber ptr pos (genunaryBucket val)).2)
      (genunarySearch val 0 _genunary_start).2.2
      (genunaryResidual val),
   genunaryBucket val + 1 + (genunarySearch val 0 _genunary_start).2.2)

/-- The reconstruction loop of `getGeneralizedUnaryEncodedNumber`:
`while (m--) { w -= step; val += 1 << w }`. -/
def genunaryAdd (val m w : Nat) : Nat :=
  match m with
  | 0 => val
  | m' + 1 => genunaryAdd (val + 2 ^ (w - _genunary_step)) m' (w - _genunary_step)

/-- `getGeneralizedUnaryEncodedNumber(ptr, pos, siz)`: unary-decodes `m`,
computes `w = start + m * step`, reads the `w`-bit residual and adds back the
implicit thresholds; reports `*siz = m + 1 + w`. -/
def getGeneralizedUnaryEncodedNumber (ptr : BitArr) (pos fuel : Nat) : Option (Nat × Nat) :=
  match getUnaryEncodedNumber ptr pos fuel with
  | none => none
  | some (m, s1) =>
    some (genunaryAdd
            (getDecodedValue ptr (pos + s1) (_genunary_start + m * _genunary_step))
            m (_genunary_start + m * _genunary_step),
          m + 1 + (_genunary_start + m * _genunary_step))

/-!  ## Elias gamma coder  -/

/-- `setEliasGammaEncodedNumber(ptr, pos, siz, val)`: stores
`unary(b)` with `b = logBaseTwo64(val)`, then `b` bits of `val`;
reports `*siz = (b + 1) + b`. -/
def setEliasGammaEncodedNumber (ptr : BitArr) (pos val : Nat) : BitArr × Nat :=
  (setDecodedValue (setUnaryEncodedNumber ptr pos (logBaseTwo64 val)).1
      (pos + (setUnaryEncodedNumber ptr pos (logBaseTwo64 val)).2)
      (logBaseTwo64 val) val,
   (setUnaryEncodedNumber ptr pos (logBaseTwo64 val)).2 + logBaseTwo64 val)

/-- `getEliasGammaEncodedNumber(ptr, pos, siz)`: unary-decodes `b`, then
returns the next `b` bits as the value; reports `*siz = (b + 1) + b`. -/
def getEliasGammaEncodedNumber (ptr : BitArr) (pos fuel : Nat) : Option (Nat × Nat) :=
  match getUnaryEncodedNumber ptr pos fuel with
  | none => none
  | some (b, s1) => some (getDecodedValue ptr (pos + s1) b, s1 + b)

/-!  ## Elias delta coder  -/

/-- `setEliasDeltaEncodedNumber(ptr, pos, siz, val)`: gamma-encodes
`b = logBaseTwo64(val)`, then stores the low `b - 1` bits of `val`;
reports `*siz = gammaSize(b) + (b - 1)`.  Both the field width `b - 1` and
the `*siz` accumulation are `uint64` arithmetic in the source, so they are
modelled modulo `2^64`: at `val = 0` (where `b = 0`) the width wraps to
`2^64 - 1` and the reported size wraps with it, exactly as the C code's
`b - 1` underflows.  For `1 ≤ b` (i.e. `val ≥ 1`) the wrapped expressions
equal the plain `b - 1` and `gammaSize(b) + (b - 1)`. -/
def setEliasDeltaEncodedNumber (ptr : BitArr) (pos val : Nat) : BitArr × Nat :=
  (setDecodedValue (setEliasGammaEncodedNumber ptr pos (logBaseTwo64 val)).1
      (pos + (setEliasGammaEncodedNumber ptr pos (logBaseTwo64 val)).2)
      ((logBaseTwo64 val + (2 ^ 64 - 1)) % 2 ^ 64) val,
   ((setEliasGammaEncodedNumber ptr pos (logBaseTwo64 val)).2 +
      (logBaseTwo64 val + (2 ^ 64 - 1)) % 2 ^ 64) % 2 ^ 64)

/-- `getEliasDeltaEncodedNumber(ptr, pos, siz)`: gamma-decodes, subtracts 1
to get the mantissa width `b`, reads the `b` mantissa bits and restores the
implicit leading bit with `uint64ONE << b | ...`.  `b = g - 1` and the
`*siz` accumulation are `uint64` arithmetic, modelled modulo `2^64`: a
gamma length marker `g = 0` wraps the width to `2^64 - 1`, as the C code's
subtraction underflows (the `uint64ONE << b` itself is well-defined in C
only for `b ≤ 63`, which holds whenever the code being read was produced
for a 64-bit value). -/
def getEliasDeltaEncodedNumber (ptr : BitArr) (pos fuel : Nat) : Option (Nat × Nat) :=
  match getEliasGammaEncodedNumber ptr pos fuel with
  | none => none
  | some (g, s1) =>
    some (2 ^ ((g + (2 ^ 64 - 1)) % 2 ^ 64) |||
            getDecodedValue ptr (pos + s1) ((g + (2 ^ 64 - 1)) % 2 ^ 64),
          (s1 + (g + (2 ^ 64 - 1)) % 2 ^ 64) % 2 ^ 64)

/-!  ## Fibonacci coder  -/

/-- Helper for the Fibonacci table: `(fibPair n).1` is entry `n`,
`(fibPair n).2` entry `n + 1`.  Structural recursion keeps it
kernel-computable. -/
def fibPair : Nat → Nat × Nat
  | 0 => (1, 2)
  | n + 1 => ((fibPair n).2, (fibPair n).1 + (fibPair n).2)

/-- Modelled from the spec: the process-wide `fibonacciValues` table (defined
in a `.C` file not under `src/`): a strictly increasing sequence of Fibonacci
numbers with `table[0] = 1`, `table[1] = 2`,
`table[i] = table[i-1] + table[i-2]`, of which the source declares the first
92 entries (up to just under `2^64`).  Modelled as the total function giving
entry `n`. -/
def fibonacciValues (n : Nat) : Nat := (fibPair n).1

/-- `const uint32 fibonacciValuesLen = 92`. -/
def fibonacciValuesLen : Nat := 92

/-- The descending greedy loop of `setFibonacciEncodedNumber`
(`fib = fibonacciValuesLen; while (fib-- > 0) ...`): processes table indices
`fib - 1` down to `0`; whenever `table[i] ≤` remaining value it marks bit `i`
and subtracts.  Returns the remaining value, the marked-bit predicate
(the contents of `out1`/`out2` by bit index), and the source's `fibmax`
before its final increment: the first (= highest) marked index plus one, the
index at which the loop also sets the terminator bit; 0 if nothing was
marked. -/
def fibLoop (val : Nat) : Nat → Nat × (Nat → Bool) × Nat
  | 0 => (val, fun _ => false, 0)
  | fib + 1 =>
    if fibonacciValues fib ≤ val then
      ((fibLoop (val - fibonacciValues fib) fib).1,
       fun i => if i = fib then true else (fibLoop (val - fibonacciValues fib) fib).2.1 i,
       fib + 1)
    else
      fibLoop val fib

/-- The marked-bit predicate produced by encoding biased value `v`
(`v = val + 1`). -/
def fibSel (v : Nat) : Nat → Bool := (fibLoop v fibonacciValuesLen).2.1

/-- The highest marked table index for biased value `v ≥ 1`
(the source's `fibmax` before increment, minus one). -/
def fibHigh (v : Nat) : Nat := (fibLoop v fibonacciValuesLen).2.2 - 1

/-- The bit stream written for a marked-bit predicate `sel` whose terminator
one-bit sits at index `hi1` (= highest marked index + 1).  The source sets
the terminator inside the `if (fibmax == uint64ZERO)` branch, i.e. only at
the first (= highest) selection; if nothing was selected (`hi1 = 0`, biased
value 0 after a `uint64` wrap) no terminator bit is ever set and the stream
is all zeros. -/
def fibStream (sel : Nat → Bool) (hi1 : Nat) : Nat → Bool :=
  fun j => if j = hi1 ∧ 1 ≤ hi1 then true else sel j

/-- The decoder's running sum over the first `k` bit positions: the sum of
`fibonacciValues i` over the marked indices `i < k` (the value accumulated by
`getFibonacciEncodedNumber`'s loop after `k` iterations). -/
def fibPartialSum (sel : Nat → Bool) : Nat → Nat
  | 0 => 0
  | k + 1 => fibPartialSum sel k + (if sel k then fibonacciValues k else 0)

/-- `setFibonacciEncodedNumber(ptr, pos, siz, val)`: runs the greedy loop on
the biased value `val++` (zero is not representable, hence the bias) — a
`uint64` increment, modelled as `(val + 1) % 2^64`: at `val = 2^64 - 1` it
wraps to 0, nothing is selected, and a single zero bit of size 1 is
written.  Then it writes the marked bits plus the terminator as one
`fibmax`-wide MSB-first field and reports `*siz = fibmax`.  In the source
the field value is assembled in `out1`/`out2` (bit index `i` at mask bit
`63 - i` resp. `127 - i`) and then shifted so that the field's MSB is
stream bit 0; `getDecodedValue` applied to the stream computes exactly that
shifted value, and the source's split into two word-sized `setDecodedValue`
calls when `fibmax > 64` writes the same contiguous field. -/
def setFibonacciEncodedNumber (ptr : BitArr) (pos val : Nat) : BitArr × Nat :=
  (setDecodedValue ptr pos ((fibLoop ((val + 1) % 2 ^ 64) fibonacciValuesLen).2.2 + 1)
      (getDecodedValue
        (fibStream (fibLoop ((val + 1) % 2 ^ 64) fibonacciValuesLen).2.1
          (fibLoop ((val + 1) % 2 ^ 64) fibonacciValuesLen).2.2)
        0 ((fibLoop ((val + 1) % 2 ^ 64) fibonacciValuesLen).2.2 + 1)),
   (fibLoop ((val + 1) % 2 ^ 64) fibonacciValuesLen).2.2 + 1)

/-- The sliding-two-bit-window loop of `getFibonacciEncodedNumber`:
`while (!oldbit || !newbit) { if (oldbit) val += table[fib]; fib++;
oldbit = newbit; newbit = next bit }`.  `p` is the absolute index of the next
bit to read (the source reads it as `ptr[wrd] & sft`, which is exactly bit
`p` in MSB-first order; the mask applied to `wrd` is the identity for every
offset considered here).  Returns `(val, fib)` at loop exit. -/
def getFibLoop (ptr : BitArr) (p : Nat) (oldbit newbit : Bool) (val fib : Nat) :
    Nat → Option (Nat × Nat)
  | 0 => none
  | fuel + 1 =>
    if oldbit && newbit then some (val, fib)
    else getFibLoop ptr (p + 1) newbit (ptr p)
      (if oldbit then val + fibonacciValues fib else val) (fib + 1) fuel

/-- `getFibonacciEncodedNumber(ptr, pos, siz)`: reads the first two bits,
runs the window loop, then adds `table[fib]` for the terminating position,
reports `*siz = fib + 2` and returns the accumulated value minus the bias. -/
def getFibonacciEncodedNumber (ptr : BitArr) (pos fuel : Nat) : Option (Nat × Nat) :=
  match getFibLoop ptr (pos + 2) (ptr pos) (ptr (pos + 1)) 0 0 fuel with
  | none => none
  | some (val, fib) => some (val + fibonacciValues fib - 1, fib + 2)

/-!  ## Read-instrumented decoders

The decoders above are pure functions, so they cannot express *which* bits
the source dereferences (only which bits the result depends on).  To settle
the frame property about reads, each decoder is repeated below instrumented
with a log of the fields it reads, as `(start, width)` pairs — one pair per
`getDecodedValue` call (per single-bit `ptr[wrd] & sft` access for the
Fibonacci decoder).  The control flow is identical to the corresponding
plain decoder, which is identical to the source.  -/

/-- `getUnaryLoop` with the read log: every iteration reads one 64-bit
window at its current position. -/
def getUnaryLoopR (ptr : BitArr) (pos val : Nat) : Nat → Option (Nat × Nat × List (Nat × Nat))
  | 0 => none
  | fuel + 1 =>
    if getDecodedValue ptr pos 64 = 0 then
      match getUnaryLoopR ptr (pos + 64) (val + 64) fuel with
      | none => none
      | some r => some (r.1, r.2.1, (pos, 64) :: r.2.2)
    else
      some (val + (64 - logBaseTwo64 (getDecodedValue ptr pos 64)),
            (val + (64 - logBaseTwo64 (getDecodedValue ptr pos 64)) + 1,
             [(pos, 64)]))

/-- `getUnaryEncodedNumber` with the read log. -/
def getUnaryEncodedNumberR (ptr : BitArr) (pos fuel : Nat) :
    Option (Nat × Nat × List (Nat × Nat)) :=
  getUnaryLoopR ptr pos 0 fuel

/-- `getGeneralizedUnaryEncodedNumber` with the read log: the unary scan's
reads, then the `w`-bit residual field. -/
def getGeneralizedUnaryEncodedNumberR (ptr : BitArr) (pos fuel : Nat) :
    Option (Nat × Nat × List (Nat × Nat)) :=
  match getUnaryEncodedNumberR ptr pos fuel with
  | none => none
  | some (m, s1, rs) =>
    some (genunaryAdd
            (getDecodedValue ptr (pos + s1) (_genunary_start + m * _genunary_step))
            m (_genunary_start + m * _genunary_step),
          m + 1 + (_genunary_start + m * _genunary_step),
          rs ++ [(pos + s1, _genunary_start + m * _genunary_step)])

/-- `getEliasGammaEncodedNumber` with the read log: the unary scan's reads,
then the `b`-bit value field. -/
def getEliasGammaEncodedNumberR (ptr : BitArr) (pos fuel : Nat) :
    Option (Nat × Nat × List (Nat × Nat)) :=
  match getUnaryEncodedNumberR ptr pos fuel with
  | none => none
  | some (b, s1, rs) =>
    some (getDecodedValue ptr (pos + s1) b, s1 + b, rs ++ [(pos + s1, b)])

/-- `getEliasDeltaEncodedNumber` with the read log: the gamma decode's reads,
then the mantissa field of the `uint64`-wrapped width `g - 1` (see
`getEliasDeltaEncodedNumber`). -/
def getEliasDeltaEncodedNumberR (ptr : BitArr) (pos fuel : Nat) :
    Option (Nat × Nat × List (Nat × Nat)) :=
  match getEliasGammaEncodedNumberR ptr pos fuel with
  | none => none
  | some (g, s1, rs) =>
    some (2 ^ ((g + (2 ^ 64 - 1)) % 2 ^ 64) |||
            getDecodedValue ptr (pos + s1) ((g + (2 ^ 64 - 1)) % 2 ^ 64),
          (s1 + (g + (2 ^ 64 - 1)) % 2 ^ 64) % 2 ^ 64,
          rs ++ [(pos + s1, (g + (2 ^ 64 - 1)) % 2 ^ 64)])

/-- `getFibLoop` with the read log: each iteration reads one bit. -/
def getFibLoopR (ptr : BitArr) (p : Nat) (oldbit newbit : Bool) (val fib : Nat) :
    Nat → Option (Nat × Nat × List (Nat × Nat))
  | 0 => none
  | fuel + 1 =>
    if oldbit && newbit then some (val, fib, [])
    else
      match getFibLoopR ptr (p + 1) newbit (ptr p)
          (if oldbit then val + fibonacciValues fib else val) (fib + 1) fuel with
      | none => none
      | some r => some (r.1, r.2.1, (p, 1) :: r.2.2)

/-- `getFibonacciEncodedNumber` with the read log: the two initial bit reads,
then one bit per loop iteration. -/
def getFibonacciEncodedNumberR (ptr : BitArr) (pos fuel : Nat) :
    Option (Nat × Nat × List (Nat × Nat)) :=
  match getFibLoopR ptr (pos + 2) (ptr pos) (ptr (pos + 1)) 0 0 fuel with
  | none => none
  | some (val, fib, rs) =>
    some (val + fibonacciValues fib - 1, fib + 2, (pos, 1) :: (pos + 1, 1) :: rs)

/-!  # Helper lemmas: the bit-field primitive  -/

theorem setDecodedValue_apply (ptr : BitArr) (pos siz v i : Nat) :
    setDecodedValue ptr pos siz v i =
      if pos ≤ i ∧ i < pos + siz then Nat.testBit v (pos + siz - 1 - i) else ptr i := rfl

theorem setDecodedValue_frame (ptr : BitArr) (pos siz v i : Nat)
    (h : i < pos ∨ pos + siz ≤ i) : setDecodedValue ptr pos siz v i = ptr i := by
  rw [setDecodedValue_apply, if_neg]; omega

theorem setDecodedValue_in (ptr : BitArr) (pos siz v j : Nat) (h : j < siz) :
    setDecodedValue ptr pos siz v (pos + j) = Nat.testBit v (siz - 1 - j) := by
  rw [setDecodedValue_apply, if_pos (by omega)]
  congr 1
  omega

theorem testBit_one (j : Nat) : Nat.testBit 1 j = decide (j = 0) := by
  have h : (1 : Nat) = 2 ^ 0 := rfl
  rw [h, Nat.testBit_two_pow]
  rcases Nat.eq_zero_or_pos j with h0 | h0 <;> simp [h0]
  omega

theorem testBit_two_pow_add (k r i : Nat) (h : r < 2 ^ k) :
    Nat.testBit (2 ^ k + r) i = (decide (i = k) || Nat.testBit r i) := by
  rcases Nat.lt_trichotomy i k with hlt | heq | hgt
  · rw [Nat.testBit_two_pow_add_gt hlt]
    simp [Nat.ne_of_lt hlt]
  · subst heq
    rw [Nat.testBit_two_pow_add_eq, Nat.testBit_lt_two_pow h]
    simp
  · have h1 : 2 ^ k + r < 2 ^ i := by
      have h2 : 2 ^ (k + 1) ≤ 2 ^ i := Nat.pow_le_pow_right (by omega) (by omega)
      have h3 : 2 ^ (k + 1) = 2 ^ k + 2 ^ k := by rw [Nat.pow_succ]; omega
      omega
    rw [Nat.testBit_lt_two_pow h1,
        Nat.testBit_lt_two_pow (Nat.lt_trans h (Nat.pow_lt_pow_right (by omega) hgt))]
    simp
    omega

theorem getDecodedValue_lt (ptr : BitArr) (pos siz : Nat) :
    getDecodedValue ptr pos siz < 2 ^ siz := by
  induction siz generalizing pos with
  | zero => simp [getDecodedValue]
  | succ w ih =>
    have h := ih (pos + 1)
    rw [getDecodedValue]
    have h2 : (2 : Nat) ^ (w + 1) = 2 ^ w + 2 ^ w := by rw [Nat.pow_succ]; omega
    split <;> omega

theorem getDecodedValue_congr (a b : BitArr) (pos siz : Nat)
    (h : ∀ i, i < siz → a (pos + i) = b (pos + i)) :
    getDecodedValue a pos siz = getDecodedValue b pos siz := by
  induction siz generalizing pos with
  | zero => rfl
  | succ w ih =>
    rw [getDecodedValue, getDecodedValue]
    have h0 : a pos = b pos := by have := h 0 (by omega); simpa using this
    have h1 : getDecodedValue a (pos + 1) w = getDecodedValue b (pos + 1) w := by
      apply ih
      intro i hi
      have := h (i + 1) (by omega)
      simpa [Nat.add_assoc, Nat.add_comm 1 i] using this
    rw [h0, h1]

theorem getDecodedValue_zero (a : BitArr) (pos siz : Nat)
    (h : ∀ i, i < siz → a (pos + i) = false) : getDecodedValue a pos siz = 0 := by
  induction siz generalizing pos with
  | zero => rfl
  | succ w ih =>
    rw [getDecodedValue]
    have h0 : a pos = false := by have := h 0 (by omega); simpa using this
    have h1 : getDecodedValue a (pos + 1) w = 0 := by
      apply ih
      intro i hi
      have := h (i + 1) (by omega)
      simpa [Nat.add_assoc, Nat.add_comm 1 i] using this
    rw [h0, h1]
    simp

theorem getDecodedValue_first_one (a : BitArr) (n pos siz : Nat) (hn : n < siz)
    (h0 : ∀ i, i < n → a (pos + i) = false) (h1 : a (pos + n) = true) :
    getDecodedValue a pos siz =
      2 ^ (siz - 1 - n) + getDecodedValue a (pos + n + 1) (siz - 1 - n) := by
  induction n generalizing pos siz with
  | zero =>
    obtain ⟨w, rfl⟩ : ∃ w, siz = w + 1 := ⟨siz - 1, by omega⟩
    rw [getDecodedValue]
    have ha : a pos = true := by simpa using h1
    rw [ha]
    simp [Nat.add_comm]
  | succ n ih =>
    obtain ⟨w, rfl⟩ : ∃ w, siz = w + 1 := ⟨siz - 1, by omega⟩
    rw [getDecodedValue]
    have ha : a pos = false := by have := h0 0 (by omega); simpa using this
    have hrec := ih (pos + 1) w (by omega)
      (fun i hi => by
        have := h0 (i + 1) (by omega)
        simpa [Nat.add_assoc, Nat.add_comm 1 i] using this)
      (by
        have : pos + 1 + n = pos + (n + 1) := by omega
        rw [this]; exact h1)
    rw [ha, hrec]
    have e1 : w + 1 - 1 - (n + 1) = w - 1 - n := by omega
    have e2 : pos + 1 + n + 1 = pos + (n + 1) + 1 := by omega
    rw [e1, e2]
    simp

theorem getDecodedValue_eq_of_testBit (a : BitArr) (pos siz v : Nat)
    (hb : ∀ i, i < siz → a (pos + i) = Nat.testBit v (siz - 1 - i))
    (hv : v < 2 ^ siz) : getDecodedValue a pos siz = v := by
  induction siz generalizing pos v with
  | zero => simp [getDecodedValue]; omega
  | succ w ih =>
    rw [getDecodedValue]
    have h0 : a pos = Nat.testBit v w := by have := hb 0 (by omega); simpa using this
    have h1 : getDecodedValue a (pos + 1) w = v % 2 ^ w := by
      apply ih
      · intro i hi
        have := hb (i + 1) (by omega)
        rw [Nat.testBit_mod_two_pow]
        have e : w + 1 - 1 - (i + 1) = w - 1 - i := by omega
        rw [e] at this
        have e2 : pos + 1 + i = pos + (i + 1) := by omega
        rw [e2, this]
        simp
        omega
      · exact Nat.mod_lt _ (Nat.pos_pow_of_pos _ (by omega))
    rw [h0, h1]
    have hdm := Nat.div_add_mod v (2 ^ w)
    have hdiv : v / 2 ^ w < 2 := by
      have : (2 : Nat) ^ (w + 1) = 2 ^ w * 2 := by rw [Nat.pow_succ]
      rw [Nat.div_lt_iff_lt_mul (Nat.pos_pow_of_pos _ (by omega))]
      omega
    have htb : Nat.testBit v w = decide (v / 2 ^ w % 2 = 1) := Nat.testBit_to_div_mod
    interval_cases h : v / 2 ^ w <;> simp [h] at htb <;> rw [htb] <;> simp <;> omega

theorem testBit_getDecodedValue (f : BitArr) (siz p i : Nat) (hi : i < siz) :
    Nat.testBit (getDecodedValue f p siz) (siz - 1 - i) = f (p + i) := by
  induction siz generalizing p i with
  | zero => omega
  | succ w ih =>
    rw [getDecodedValue]
    have hlt := getDecodedValue_lt f (p + 1) w
    cases i with
    | zero =>
      simp only [Nat.add_sub_cancel, Nat.sub_zero, Nat.add_zero]
      cases hf : f p with
      | true => simp [testBit_two_pow_add _ _ _ hlt]
      | false => simp [Nat.testBit_lt_two_pow hlt]
    | succ i' =>
      have hw : 1 ≤ w := by omega
      have e : w + 1 - 1 - (i' + 1) = w - 1 - i' := by omega
      rw [e]
      have hpos : w - 1 - i' < w := by omega
      cases hf : f p with
      | true =>
        rw [if_pos rfl, testBit_two_pow_add _ _ _ hlt]
        have hne : ¬(w - 1 - i' = w) := by omega
        rw [decide_eq_false hne, Bool.false_or]
        rw [ih (p + 1) i' (by omega)]
        congr 1
        omega
      | false =>
        rw [if_neg (by simp), Nat.zero_add]
        rw [ih (p + 1) i' (by omega)]
        congr 1
        omega

theorem two_pow_lor_eq_add (k r : Nat) (h : r < 2 ^ k) : 2 ^ k ||| r = 2 ^ k + r := by
  apply Nat.eq_of_testBit_eq
  intro i
  rw [Nat.testBit_or, testBit_two_pow_add _ _ _ h, Nat.testBit_two_pow]
  rcases Nat.decEq i k with h' | h' <;> simp [h']
  intro hik
  omega

theorem getDecodedValue_setDecodedValue_mod (ptr : BitArr) (pos siz v : Nat) :
    getDecodedValue (setDecodedValue ptr pos siz v) pos siz = v % 2 ^ siz := by
  apply getDecodedValue_eq_of_testBit
  · intro i hi
    rw [setDecodedValue_in _ _ _ _ _ hi, Nat.testBit_mod_two_pow]
    have : siz - 1 - i < siz := by omega
    simp [this]
  · exact Nat.mod_lt _ (Nat.pos_pow_of_pos _ (by omega))

theorem getDecodedValue_setDecodedValue (ptr : BitArr) (pos siz v : Nat) (h : v < 2 ^ siz) :
    getDecodedValue (setDecodedValue ptr pos siz v) pos siz = v := by
  rw [getDecodedValue_setDecodedValue_mod, Nat.mod_eq_of_lt h]

/-!  # Helper lemmas: `logBaseTwo64`  -/

theorem log2fuel_zero (fuel : Nat) : log2fuel fuel 0 = 0 := by
  cases fuel <;> simp [log2fuel]

theorem log2fuel_spec (fuel x : Nat) (hf : x ≤ fuel) (hx : 1 ≤ x) :
    1 ≤ log2fuel fuel x ∧ 2 ^ (log2fuel fuel x - 1) ≤ x ∧ x < 2 ^ log2fuel fuel x := by
  induction fuel generalizing x with
  | zero => omega
  | succ f ih =>
    rw [log2fuel, if_neg (by omega)]
    rcases Nat.lt_or_ge x 2 with h2 | h2
    · have hx1 : x = 1 := by omega
      subst hx1
      simp [log2fuel_zero]
    · have hrec := ih (x / 2) (by omega) (by omega)
      set L := log2fuel f (x / 2) with hL
      refine ⟨by omega, ?_, ?_⟩
      · have e : L + 1 - 1 = (L - 1) + 1 := by omega
        rw [e, Nat.pow_succ]
        have := hrec.2.1
        omega
      · rw [Nat.pow_succ]
        have := hrec.2.2
        omega

theorem logBaseTwo64_zero : logBaseTwo64 0 = 0 := rfl

theorem logBaseTwo64_spec (x : Nat) (hx : 1 ≤ x) :
    1 ≤ logBaseTwo64 x ∧ 2 ^ (logBaseTwo64 x - 1) ≤ x ∧ x < 2 ^ logBaseTwo64 x :=
  log2fuel_spec x x (Nat.le_refl x) hx

theorem logBaseTwo64_eq (k x : Nat) (h1 : 2 ^ k ≤ x) (h2 : x < 2 ^ (k + 1)) :
    logBaseTwo64 x = k + 1 := by
  have hx : 1 ≤ x := Nat.le_trans (Nat.pos_pow_of_pos k (by omega)) h1
  obtain ⟨hL1, hL2, hL3⟩ := logBaseTwo64_spec x hx
  set L := logBaseTwo64 x with hL
  have ha : L - 1 < k + 1 := by
    rw [← Nat.pow_lt_pow_iff_right (a := 2) (by omega)]
    omega
  have hb : k < L := by
    rw [← Nat.pow_lt_pow_iff_right (a := 2) (by omega)]
    omega
  omega

theorem logBaseTwo64_le_iff (x k : Nat) : logBaseTwo64 x ≤ k ↔ x < 2 ^ k := by
  rcases Nat.eq_zero_or_pos x with h0 | h0
  · subst h0
    have h1 : 0 < 2 ^ k := Nat.pos_pow_of_pos k (by omega)
    simp [logBaseTwo64_zero, h1]
  · obtain ⟨hL1, hL2, hL3⟩ := logBaseTwo64_spec x h0
    constructor
    · intro h
      exact Nat.lt_of_lt_of_le hL3 (Nat.pow_le_pow_right (by omega) h)
    · intro h
      by_contra hc
      have : 2 ^ k ≤ 2 ^ (logBaseTwo64 x - 1) := Nat.pow_le_pow_right (by omega) (by omega)
      omega

theorem lt_logBaseTwo64_iff (x k : Nat) : k < logBaseTwo64 x ↔ 2 ^ k ≤ x := by
  have h := logBaseTwo64_le_iff x k
  omega

/-!  # Helper lemmas: unary coder  -/

theorem setUnaryZeroWords_apply (k : Nat) (ptr : BitArr) (pos i : Nat) :
    setUnaryZeroWords ptr pos k i =
      if pos ≤ i ∧ i < pos + 64 * k then false else ptr i := by
  induction k generalizing ptr pos with
  | zero =>
    rw [setUnaryZeroWords, if_neg]
    omega
  | succ k ih =>
    rw [setUnaryZeroWords, ih, setDecodedValue_apply]
    by_cases h1 : pos + 64 ≤ i ∧ i < pos + 64 + 64 * k
    · rw [if_pos h1, if_pos (by omega)]
    · rw [if_neg h1]
      by_cases h2 : pos ≤ i ∧ i < pos + 64
      · rw [if_pos h2, if_pos (by omega), Nat.zero_testBit]
      · rw [if_neg h2, if_neg (by omega)]

theorem setUnary_apply (ptr : BitArr) (pos val i : Nat) :
    (setUnaryEncodedNumber ptr pos val).1 i =
      if pos ≤ i ∧ i < pos + val then false
      else if i = pos + val then true
      else ptr i := by
  have hdm := Nat.div_add_mod val 64
  simp only [setUnaryEncodedNumber]
  rw [setDecodedValue_apply, setUnaryZeroWords_apply, testBit_one]
  by_cases h1 : pos + 64 * (val / 64) ≤ i ∧ i < pos + 64 * (val / 64) + (val % 64 + 1)
  · rw [if_pos h1]
    split_ifs with ha hb
    · simp only [decide_eq_false_iff_not]
      omega
    · simp only [decide_eq_true_eq]
      omega
    · exfalso
      omega
  · rw [if_neg h1]
    split_ifs with hzw ha hb ha hb
    · rfl
    · exfalso; omega
    · exfalso; omega
    · exfalso; omega
    · exfalso; omega
    · rfl

theorem getUnaryLoop_spec (a : BitArr) (fuel : Nat) :
    ∀ pos acc n, (∀ i, i < n → a (pos + i) = false) → a (pos + n) = true →
      n / 64 < fuel → getUnaryLoop a pos acc fuel = some (acc + n, acc + n + 1) := by
  induction fuel with
  | zero => omega
  | succ f ih =>
    intro pos acc n h0 h1 hf
    rw [getUnaryLoop]
    rcases Nat.lt_or_ge n 64 with hn | hn
    · have henc := getDecodedValue_first_one a n pos 64 (by omega) h0 h1
      have hr := getDecodedValue_lt a (pos + n + 1) (64 - 1 - n)
      have hp : 0 < 2 ^ (64 - 1 - n) := Nat.pos_pow_of_pos _ (by omega)
      rw [if_neg (by omega)]
      have hL : logBaseTwo64 (getDecodedValue a pos 64) = (64 - 1 - n) + 1 := by
        apply logBaseTwo64_eq
        · omega
        · have h2 : (2 : Nat) ^ (64 - 1 - n + 1) = 2 ^ (64 - 1 - n) + 2 ^ (64 - 1 - n) := by
            rw [Nat.pow_succ]; omega
          omega
      rw [hL]
      have e : 64 - ((64 - 1 - n) + 1) = n := by omega
      rw [e]
    · have hz : getDecodedValue a pos 64 = 0 :=
        getDecodedValue_zero a pos 64 (fun i hi => h0 i (by omega))
      rw [if_pos hz]
      have hrec := ih (pos + 64) (acc + 64) (n - 64)
        (fun i hi => by
          have := h0 (64 + i) (by omega)
          rw [show pos + 64 + i = pos + (64 + i) by omega]
          exact this)
        (by
          rw [show pos + 64 + (n - 64) = pos + n by omega]
          exact h1)
        (by omega)
      rw [hrec]
      have e1 : acc + 64 + (n - 64) = acc + n := by omega
      rw [e1]

theorem getUnary_of_code (a : BitArr) (pos n fuel : Nat)
    (h0 : ∀ i, i < n → a (pos + i) = false) (h1 : a (pos + n) = true)
    (hf : n / 64 < fuel) : getUnaryEncodedNumber a pos fuel = some (n, n + 1) := by
  have := getUnaryLoop_spec a fuel pos 0 n h0 h1 hf
  simpa [getUnaryEncodedNumber] using this

/-!  # Claims  -/

/-- C1: for every `n ≥ 0`, `setUnaryEncodedNumber` writes exactly `n` zero
bits followed by a single one bit at offset `pos` (touching nothing else) and
reports size `n + 1`, and `getUnaryEncodedNumber` at the same offset returns
`n` with size `n + 1`.  The concrete vectors `unary(0) = 1` (size 1) and
`unary(4) = 00001` (size 5) are the instances `n = 0` and `n = 4`. -/
theorem C1_unary_encode_decode (n pos : Nat) (a : BitArr) :
    (setUnaryEncodedNumber a pos n).2 = n + 1
    ∧ (∀ i, i < n → (setUnaryEncodedNumber a pos n).1 (pos + i) = false)
    ∧ (setUnaryEncodedNumber a pos n).1 (pos + n) = true
    ∧ (∀ i, i < pos ∨ pos + n < i → (setUnaryEncodedNumber a pos n).1 i = a i)
    ∧ getUnaryEncodedNumber (setUnaryEncodedNumber a pos n).1 pos (n / 64 + 1) =
        some (n, n + 1) := by
  refine ⟨rfl, ?_, ?_, ?_, ?_⟩
  · intro i hi
    rw [setUnary_apply, if_pos ⟨by omega, by omega⟩]
  · rw [setUnary_apply, if_neg (by omega), if_pos rfl]
  · intro i hi
    rw [setUnary_apply, if_neg (by omega), if_neg (by omega)]
  · exact getUnary_of_code _ pos n _
      (fun i hi => by rw [setUnary_apply, if_pos ⟨by omega, by omega⟩])
      (by rw [setUnary_apply, if_neg (by omega), if_pos rfl])
      (by omega)

/-!  # Elias gamma: decode of a well-formed code region  -/

theorem setUnary_siz (ptr : BitArr) (pos val : Nat) :
    (setUnaryEncodedNumber ptr pos val).2 = val + 1 := rfl

theorem getEliasGamma_of_code (a : BitArr) (pos k fuel : Nat)
    (h0 : ∀ i, i < k → a (pos + i) = false) (h1 : a (pos + k) = true)
    (hf : k / 64 < fuel) :
    getEliasGammaEncodedNumber a pos fuel =
      some (getDecodedValue a (pos + (k + 1)) k, (k + 1) + k) := by
  rw [getEliasGammaEncodedNumber, getUnary_of_code a pos k fuel h0 h1 hf]

/-- C3: Elias-gamma round-trips: for `1 ≤ n < 2^64`, decoding at the offset
where `setEliasGammaEncodedNumber` wrote returns exactly `n` and exactly the
size the encoder reported. -/
theorem C3_gamma_roundtrip (n pos : Nat) (a : BitArr) (h1 : 1 ≤ n) (h2 : n < 2 ^ 64) :
    getEliasGammaEncodedNumber (setEliasGammaEncodedNumber a pos n).1 pos 2 =
      some (n, (setEliasGammaEncodedNumber a pos n).2) := by
  obtain ⟨hL1, hL2, hL3⟩ := logBaseTwo64_spec n h1
  have hL64 : logBaseTwo64 n ≤ 64 := (logBaseTwo64_le_iff n 64).2 h2
  have e1 : (setEliasGammaEncodedNumber a pos n).1 =
      setDecodedValue (setUnaryEncodedNumber a pos (logBaseTwo64 n)).1
        (pos + (logBaseTwo64 n + 1)) (logBaseTwo64 n) n := rfl
  have hbits : ∀ i, i < logBaseTwo64 n →
      (setEliasGammaEncodedNumber a pos n).1 (pos + i) = false := by
    intro i hi
    rw [e1, setDecodedValue_frame _ _ _ _ _ (by omega), setUnary_apply,
        if_pos ⟨by omega, by omega⟩]
  have hterm : (setEliasGammaEncodedNumber a pos n).1 (pos + logBaseTwo64 n) = true := by
    rw [e1, setDecodedValue_frame _ _ _ _ _ (by omega), setUnary_apply,
        if_neg (by omega), if_pos rfl]
  rw [getEliasGamma_of_code _ pos (logBaseTwo64 n) 2 hbits hterm (by omega)]
  have hval : getDecodedValue (setEliasGammaEncodedNumber a pos n).1
      (pos + (logBaseTwo64 n + 1)) (logBaseTwo64 n) = n := by
    rw [e1, getDecodedValue_setDecodedValue _ _ _ _ hL3]
  rw [hval]
  rfl

/-- Witness for C3 at `n = 4`. -/
theorem C3_gamma_roundtrip_witness :
    ((1 ≤ 4 ∧ 4 < 2 ^ 64) ∧
      getEliasGammaEncodedNumber (setEliasGammaEncodedNumber (fun _ => false) 0 4).1 0 2 =
        some (4, (setEliasGammaEncodedNumber (fun _ => false) 0 4).2)) :=
  ⟨⟨by decide, by decide⟩, C3_gamma_roundtrip 4 0 (fun _ => false) (by decide) (by decide)⟩

/-- C6 fails on the code at `n = 1`: the claimed size `2*floor(log2 1)+1 = 1`
is not what the encoder reports — `logBaseTwo64` is the 1-based position of
the highest set bit (`logBaseTwo64 1 = 1`, not `floor(log2 1) = 0`), so the
code stores `unary(1) = 01` plus the 1-bit field `1`, reporting size 3. -/
theorem C6_counterexample : ¬((setEliasGammaEncodedNumber (fun _ => false) 0 1).2 = 1) := by
  decide

/-- C6 amended: `setEliasGammaEncodedNumber` writes `unary(b)` with
`b = logBaseTwo64 n = floor(log2 n) + 1` (the bit-length of `n`, not
`floor(log2 n)`), followed by all `b` bits of `n` — the leading 1-bit of `n`
is stored explicitly, not dropped — and reports size
`2*b + 1 = 2*floor(log2 n) + 3`.  In particular `eliasGamma(1) = 011`
(size 3) and `eliasGamma(4) = 0001 100` (size 7), not `1` and `00100`. -/
theorem C6_gamma_layout_amended (n pos : Nat) (a : BitArr) (h : 1 ≤ n) :
    (setEliasGammaEncodedNumber a pos n).2 = 2 * Nat.log2 n + 3
    ∧ logBaseTwo64 n = Nat.log2 n + 1
    ∧ (∀ i, i < logBaseTwo64 n → (setEliasGammaEncodedNumber a pos n).1 (pos + i) = false)
    ∧ (setEliasGammaEncodedNumber a pos n).1 (pos + logBaseTwo64 n) = true
    ∧ getDecodedValue (setEliasGammaEncodedNumber a pos n).1
        (pos + (logBaseTwo64 n + 1)) (logBaseTwo64 n) = n := by
  obtain ⟨hL1, hL2, hL3⟩ := logBaseTwo64_spec n h
  have hlog : logBaseTwo64 n = Nat.log2 n + 1 := by
    apply logBaseTwo64_eq
    · exact Nat.log2_self_le (by omega)
    · exact Nat.lt_log2_self
  have e1 : (setEliasGammaEncodedNumber a pos n).1 =
      setDecodedValue (setUnaryEncodedNumber a pos (logBaseTwo64 n)).1
        (pos + (logBaseTwo64 n + 1)) (logBaseTwo64 n) n := rfl
  refine ⟨?_, hlog, ?_, ?_, ?_⟩
  · have e2 : (setEliasGammaEncodedNumber a pos n).2 =
        (logBaseTwo64 n + 1) + logBaseTwo64 n := rfl
    rw [e2, hlog]
    omega
  · intro i hi
    rw [e1, setDecodedValue_frame _ _ _ _ _ (by omega), setUnary_apply,
        if_pos ⟨by omega, by omega⟩]
  · rw [e1, setDecodedValue_frame _ _ _ _ _ (by omega), setUnary_apply,
        if_neg (by omega), if_pos rfl]
  · rw [e1, getDecodedValue_setDecodedValue _ _ _ _ hL3]

/-- Witness for the amended C6 at `n = 4` (size `2*floor(log2 4)+3 = 7`). -/
theorem C6_gamma_layout_amended_witness :
    (1 ≤ 4 ∧ (setEliasGammaEncodedNumber (fun _ => false) 0 4).2 = 2 * Nat.log2 4 + 3) :=
  ⟨by decide, (C6_gamma_layout_amended 4 0 (fun _ => false) (by decide)).1⟩

/-- C10: `setEliasGammaEncodedNumber` accepts 0: it writes the single
terminating one-bit of `unary(0)` (touching no other bit), reports size 1,
and decoding at the same offset returns `(0, 1)`. -/
theorem C10_gamma_zero (pos : Nat) (a : BitArr) :
    (setEliasGammaEncodedNumber a pos 0).2 = 1
    ∧ (setEliasGammaEncodedNumber a pos 0).1 pos = true
    ∧ (∀ i, i ≠ pos → (setEliasGammaEncodedNumber a pos 0).1 i = a i)
    ∧ getEliasGammaEncodedNumber (setEliasGammaEncodedNumber a pos 0).1 pos 1 =
        some (0, 1) := by
  have e1 : (setEliasGammaEncodedNumber a pos 0).1 =
      setDecodedValue (setUnaryEncodedNumber a pos 0).1 (pos + (0 + 1)) 0 0 := rfl
  have happ : ∀ i, (setEliasGammaEncodedNumber a pos 0).1 i =
      (setUnaryEncodedNumber a pos 0).1 i := by
    intro i
    rw [e1, setDecodedValue_frame _ _ _ _ _ (by omega)]
  have hterm : (setEliasGammaEncodedNumber a pos 0).1 pos = true := by
    rw [happ, setUnary_apply, if_neg (by omega), if_pos (by omega)]
  refine ⟨rfl, hterm, ?_, ?_⟩
  · intro i hi
    rw [happ, setUnary_apply, if_neg (by omega), if_neg (by omega)]
  · have hdec := getEliasGamma_of_code (setEliasGammaEncodedNumber a pos 0).1 pos 0 1
      (fun i hi => by omega)
      (by rw [Nat.add_zero]; exact hterm)
      (by omega)
    rw [hdec]
    rfl

/-!  # Elias delta  -/

theorem two_pow_64_eq : (2 : Nat) ^ 64 = 18446744073709551616 := by norm_num

/-- The `uint64` subtraction `b - 1`, modelled as `(b + (2^64 - 1)) % 2^64`,
agrees with the truncated `Nat` subtraction whenever `b` is a nonzero
64-bit value. -/
theorem uint64_sub_one (b : Nat) (h1 : 1 ≤ b) (h2 : b < 2 ^ 64) :
    (b + (2 ^ 64 - 1)) % 2 ^ 64 = b - 1 := by
  rw [two_pow_64_eq] at h2 ⊢
  omega

/-- Gamma decoding succeeds on any array that agrees with a freshly
gamma-encoded array on the code's own bit range (bits after the code are
arbitrary) — used to decode the gamma length field inside a delta code. -/
theorem gamma_decode_after_encode (x pos fuel : Nat) (a b : BitArr) (hx : 1 ≤ x)
    (hf : logBaseTwo64 x / 64 < fuel)
    (hagree : ∀ i, i < (setEliasGammaEncodedNumber a pos x).2 →
      b (pos + i) = (setEliasGammaEncodedNumber a pos x).1 (pos + i)) :
    getEliasGammaEncodedNumber b pos fuel =
      some (x, (setEliasGammaEncodedNumber a pos x).2) := by
  obtain ⟨hL1, hL2, hL3⟩ := logBaseTwo64_spec x hx
  have e1 : (setEliasGammaEncodedNumber a pos x).1 =
      setDecodedValue (setUnaryEncodedNumber a pos (logBaseTwo64 x)).1
        (pos + (logBaseTwo64 x + 1)) (logBaseTwo64 x) x := rfl
  have e2 : (setEliasGammaEncodedNumber a pos x).2 =
      (logBaseTwo64 x + 1) + logBaseTwo64 x := rfl
  have hbits : ∀ i, i < logBaseTwo64 x → b (pos + i) = false := by
    intro i hi
    rw [hagree i (by omega), e1, setDecodedValue_frame _ _ _ _ _ (by omega),
        setUnary_apply, if_pos ⟨by omega, by omega⟩]
  have hterm : b (pos + logBaseTwo64 x) = true := by
    rw [hagree _ (by omega), e1, setDecodedValue_frame _ _ _ _ _ (by omega),
        setUnary_apply, if_neg (by omega), if_pos rfl]
  rw [getEliasGamma_of_code b pos (logBaseTwo64 x) fuel hbits hterm hf]
  have hval : getDecodedValue b (pos + (logBaseTwo64 x + 1)) (logBaseTwo64 x) = x := by
    have hcongr : getDecodedValue b (pos + (logBaseTwo64 x + 1)) (logBaseTwo64 x) =
        getDecodedValue (setEliasGammaEncodedNumber a pos x).1
          (pos + (logBaseTwo64 x + 1)) (logBaseTwo64 x) := by
      apply getDecodedValue_congr
      intro i hi
      rw [show pos + (logBaseTwo64 x + 1) + i = pos + (logBaseTwo64 x + 1 + i) by omega,
          hagree _ (by omega)]
    rw [hcongr, e1, getDecodedValue_setDecodedValue _ _ _ _ hL3]
  rw [hval, e2]

/-- C4: Elias-delta round-trips: for `1 ≤ val < 2^64`, decoding at the offset
where `setEliasDeltaEncodedNumber` wrote returns exactly `val` and exactly
the size the encoder reported. -/
theorem C4_delta_roundtrip (val pos : Nat) (a : BitArr) (h1 : 1 ≤ val) (h2 : val < 2 ^ 64) :
    getEliasDeltaEncodedNumber (setEliasDeltaEncodedNumber a pos val).1 pos 2 =
      some (val, (setEliasDeltaEncodedNumber a pos val).2) := by
  obtain ⟨hb1, hb2, hb3⟩ := logBaseTwo64_spec val h1
  have h64 : logBaseTwo64 val ≤ 64 := (logBaseTwo64_le_iff val 64).2 h2
  have hbw : (logBaseTwo64 val + (2 ^ 64 - 1)) % 2 ^ 64 = logBaseTwo64 val - 1 :=
    uint64_sub_one _ hb1 (by rw [two_pow_64_eq]; omega)
  have e1 : (setEliasDeltaEncodedNumber a pos val).1 =
      setDecodedValue (setEliasGammaEncodedNumber a pos (logBaseTwo64 val)).1
        (pos + (setEliasGammaEncodedNumber a pos (logBaseTwo64 val)).2)
        (logBaseTwo64 val - 1) val := by
    have e0 : (setEliasDeltaEncodedNumber a pos val).1 =
        setDecodedValue (setEliasGammaEncodedNumber a pos (logBaseTwo64 val)).1
          (pos + (setEliasGammaEncodedNumber a pos (logBaseTwo64 val)).2)
          ((logBaseTwo64 val + (2 ^ 64 - 1)) % 2 ^ 64) val := rfl
    rw [e0, hbw]
  have hgd := gamma_decode_after_encode (logBaseTwo64 val) pos 2 a
    (setEliasDeltaEncodedNumber a pos val).1 hb1
    (by
      have : logBaseTwo64 (logBaseTwo64 val) ≤ 64 := by
        rw [logBaseTwo64_le_iff]
        have : logBaseTwo64 val < 2 ^ 64 := by
          have h64 : logBaseTwo64 val ≤ 64 := (logBaseTwo64_le_iff val 64).2 h2
          have : (64 : Nat) < 2 ^ 64 := by norm_num
          omega
        exact this
      omega)
    (by
      intro i hi
      rw [e1, setDecodedValue_frame _ _ _ _ _ (by omega)])
  have hstep : getEliasDeltaEncodedNumber (setEliasDeltaEncodedNumber a pos val).1 pos 2 =
      some (2 ^ (logBaseTwo64 val - 1) |||
              getDecodedValue (setEliasDeltaEncodedNumber a pos val).1
                (pos + (setEliasGammaEncodedNumber a pos (logBaseTwo64 val)).2)
                (logBaseTwo64 val - 1),
            ((setEliasGammaEncodedNumber a pos (logBaseTwo64 val)).2 +
              (logBaseTwo64 val - 1)) % 2 ^ 64) := by
    rw [getEliasDeltaEncodedNumber, hgd]
    show some (2 ^ ((logBaseTwo64 val + (2 ^ 64 - 1)) % 2 ^ 64) |||
            getDecodedValue (setEliasDeltaEncodedNumber a pos val).1
              (pos + (setEliasGammaEncodedNumber a pos (logBaseTwo64 val)).2)
              ((logBaseTwo64 val + (2 ^ 64 - 1)) % 2 ^ 64),
          ((setEliasGammaEncodedNumber a pos (logBaseTwo64 val)).2 +
             (logBaseTwo64 val + (2 ^ 64 - 1)) % 2 ^ 64) % 2 ^ 64) = _
    rw [hbw]
  have hmod : getDecodedValue (setEliasDeltaEncodedNumber a pos val).1
      (pos + (setEliasGammaEncodedNumber a pos (logBaseTwo64 val)).2)
      (logBaseTwo64 val - 1) = val % 2 ^ (logBaseTwo64 val - 1) := by
    rw [e1, getDecodedValue_setDecodedValue_mod]
  have hpow : 2 ^ logBaseTwo64 val = 2 ^ (logBaseTwo64 val - 1) + 2 ^ (logBaseTwo64 val - 1) := by
    conv_lhs => rw [show logBaseTwo64 val = (logBaseTwo64 val - 1) + 1 by omega]
    rw [Nat.pow_succ]
    omega
  have hsub : val % 2 ^ (logBaseTwo64 val - 1) = val - 2 ^ (logBaseTwo64 val - 1) := by
    have hd := Nat.div_add_mod val (2 ^ (logBaseTwo64 val - 1))
    have hpos : 0 < 2 ^ (logBaseTwo64 val - 1) := Nat.pos_pow_of_pos _ (by omega)
    have hdiv : val / 2 ^ (logBaseTwo64 val - 1) = 1 := by
      have ha : 1 ≤ val / 2 ^ (logBaseTwo64 val - 1) := (Nat.one_le_div_iff hpos).2 hb2
      have hc : val / 2 ^ (logBaseTwo64 val - 1) < 2 := by
        rw [Nat.div_lt_iff_lt_mul hpos]
        omega
      omega
    rw [hdiv] at hd
    omega
  have hlor : 2 ^ (logBaseTwo64 val - 1) ||| (val - 2 ^ (logBaseTwo64 val - 1)) = val := by
    rw [two_pow_lor_eq_add _ _ (by omega)]
    omega
  have e2 : (setEliasDeltaEncodedNumber a pos val).2 =
      ((setEliasGammaEncodedNumber a pos (logBaseTwo64 val)).2 +
        (logBaseTwo64 val - 1)) % 2 ^ 64 := by
    have e0 : (setEliasDeltaEncodedNumber a pos val).2 =
        ((setEliasGammaEncodedNumber a pos (logBaseTwo64 val)).2 +
          (logBaseTwo64 val + (2 ^ 64 - 1)) % 2 ^ 64) % 2 ^ 64 := rfl
    rw [e0, hbw]
  rw [hstep, hmod, hsub, hlor, e2]

/-- Witness for C4 at `val = 5`. -/
theorem C4_delta_roundtrip_witness :
    ((1 ≤ 5 ∧ 5 < 2 ^ 64) ∧
      getEliasDeltaEncodedNumber (setEliasDeltaEncodedNumber (fun _ => false) 0 5).1 0 2 =
        some (5, (setEliasDeltaEncodedNumber (fun _ => false) 0 5).2)) :=
  ⟨⟨by decide, by decide⟩, C4_delta_roundtrip 5 0 (fun _ => false) (by decide) (by decide)⟩

/-- C8: with crossover `C = 16`, for every `16 ≤ n < 2^64` the size reported
by the delta encoder is at most the size reported by the gamma encoder
(delta: `2*logBaseTwo64(logBaseTwo64 n) + 1 + (logBaseTwo64 n - 1)` bits,
gamma: `2*logBaseTwo64 n + 1` bits); this proves the existence of a
crossover value. -/
theorem C8_delta_beats_gamma (n pos : Nat) (a : BitArr) (h1 : 16 ≤ n) (h2 : n < 2 ^ 64) :
    (setEliasDeltaEncodedNumber a pos n).2 ≤ (setEliasGammaEncodedNumber a pos n).2 := by
  have eg : (setEliasGammaEncodedNumber a pos n).2 = (logBaseTwo64 n + 1) + logBaseTwo64 n := rfl
  have h5 : 5 ≤ logBaseTwo64 n := by
    have := (lt_logBaseTwo64_iff n 4).2 (by norm_num; omega)
    omega
  have h64' : logBaseTwo64 n ≤ 64 := (logBaseTwo64_le_iff n 64).2 h2
  have hLL : logBaseTwo64 (logBaseTwo64 n) ≤ 7 := by
    apply (logBaseTwo64_le_iff _ 7).2
    have h128 : (2 : Nat) ^ 7 = 128 := by norm_num
    omega
  have hbw : (logBaseTwo64 n + (2 ^ 64 - 1)) % 2 ^ 64 = logBaseTwo64 n - 1 :=
    uint64_sub_one _ (by omega) (by rw [two_pow_64_eq]; omega)
  have ed : (setEliasDeltaEncodedNumber a pos n).2 =
      ((logBaseTwo64 (logBaseTwo64 n) + 1) + logBaseTwo64 (logBaseTwo64 n)) +
        (logBaseTwo64 n - 1) := by
    have e0 : (setEliasDeltaEncodedNumber a pos n).2 =
        (((logBaseTwo64 (logBaseTwo64 n) + 1) + logBaseTwo64 (logBaseTwo64 n)) +
          (logBaseTwo64 n + (2 ^ 64 - 1)) % 2 ^ 64) % 2 ^ 64 := rfl
    rw [e0, hbw]
    apply Nat.mod_eq_of_lt
    rw [two_pow_64_eq]
    omega
  have h64 : logBaseTwo64 n ≤ 64 := (logBaseTwo64_le_iff n 64).2 h2
  have key : ∀ s, s < 65 → 5 ≤ s → 2 * logBaseTwo64 s ≤ s + 1 := by decide
  have := key (logBaseTwo64 n) (by omega) h5
  omega

/-- Witness for C8 at `n = 16` (both sizes are 11 bits there). -/
theorem C8_delta_beats_gamma_witness :
    ((16 ≤ 16 ∧ 16 < 2 ^ 64) ∧
      (setEliasDeltaEncodedNumber (fun _ => false) 0 16).2 ≤
        (setEliasGammaEncodedNumber (fun _ => false) 0 16).2) :=
  ⟨⟨by decide, by decide⟩, C8_delta_beats_gamma 16 0 (fun _ => false) (by decide) (by decide)⟩

/-!  # Generalized unary  -/

theorem genunaryAdd_succ_last (k : Nat) : ∀ v w,
    genunaryAdd v (k + 1) w = genunaryAdd v k w + 2 ^ (w - 2 * (k + 1)) := by
  induction k with
  | zero =>
    intro v w
    simp [genunaryAdd, _genunary_step]
  | succ k ih =>
    intro v w
    have l1 : genunaryAdd v (k + 1 + 1) w =
        genunaryAdd (v + 2 ^ (w - 2)) (k + 1) (w - 2) := rfl
    have l2 : genunaryAdd v (k + 1) w = genunaryAdd (v + 2 ^ (w - 2)) k (w - 2) := rfl
    rw [l1, ih, l2]
    congr 2
    omega

theorem genunarySearch_spec (val : Nat) : ∀ m w,
    m ≤ (genunarySearch val m w).2.1
    ∧ (genunarySearch val m w).2.2 + m * 2 = w + (genunarySearch val m w).2.1 * 2
    ∧ (genunarySearch val m w).1 < 2 ^ (genunarySearch val m w).2.2
    ∧ genunaryAdd (genunarySearch val m w).1 ((genunarySearch val m w).2.1 - m)
        (genunarySearch val m w).2.2 = val := by
  induction val using Nat.strong_induction_on with
  | _ val ih =>
    intro m w
    rw [genunarySearch]
    split
    · rename_i h
      have hpos : 0 < 2 ^ w := Nat.pos_pow_of_pos w (by omega)
      have hstep : w + _genunary_step = w + 2 := rfl
      rw [hstep]
      obtain ⟨r1, r2, r3, r4⟩ := ih (val - 2 ^ w) (by omega) (m + 1) (w + 2)
      refine ⟨by omega, by omega, r3, ?_⟩
      have hk : (genunarySearch (val - 2 ^ w) (m + 1) (w + 2)).2.1 - m =
          ((genunarySearch (val - 2 ^ w) (m + 1) (w + 2)).2.1 - (m + 1)) + 1 := by omega
      rw [hk, genunaryAdd_succ_last, r4]
      have he : (genunarySearch (val - 2 ^ w) (m + 1) (w + 2)).2.2 -
          2 * (((genunarySearch (val - 2 ^ w) (m + 1) (w + 2)).2.1 - (m + 1)) + 1) = w := by
        omega
      rw [he]
      omega
    · rename_i h
      refine ⟨Nat.le_refl m, ?_, ?_, ?_⟩
      · simp
      · simp
        omega
      · simp [genunaryAdd]

theorem getGenunary_of_code (a : BitArr) (pos m fuel : Nat)
    (h0 : ∀ i, i < m → a (pos + i) = false) (h1 : a (pos + m) = true)
    (hf : m / 64 < fuel) :
    getGeneralizedUnaryEncodedNumber a pos fuel =
      some (genunaryAdd
              (getDecodedValue a (pos + (m + 1)) (_genunary_start + m * _genunary_step))
              m (_genunary_start + m * _genunary_step),
            m + 1 + (_genunary_start + m * _genunary_step)) := by
  rw [getGeneralizedUnaryEncodedNumber, getUnary_of_code a pos m fuel h0 h1 hf]

/-- C2: for every `val` whose bucket `m` keeps the residual width
`w(m) = start + m*step = 3 + 2m` within 64 bits, the encoder stores
`unary(m)` followed by the residual in a `w(m)`-bit MSB-first field and
reports size `(m+1) + w(m)`, and the decoder returns exactly `val`
(re-adding the subtracted thresholds) with the same size. -/
theorem C2_genunary_roundtrip (val pos : Nat) (a : BitArr)
    (h : _genunary_start + genunaryBucket val * _genunary_step ≤ 64) :
    (setGeneralizedUnaryEncodedNumber a pos val).2 =
      (genunaryBucket val + 1) + (_genunary_start + genunaryBucket val * _genunary_step)
    ∧ (∀ i, i < genunaryBucket val →
        (setGeneralizedUnaryEncodedNumber a pos val).1 (pos + i) = false)
    ∧ (setGeneralizedUnaryEncodedNumber a pos val).1 (pos + genunaryBucket val) = true
    ∧ getDecodedValue (setGeneralizedUnaryEncodedNumber a pos val).1
        (pos + (genunaryBucket val + 1))
        (_genunary_start + genunaryBucket val * _genunary_step) = genunaryResidual val
    ∧ getGeneralizedUnaryEncodedNumber (setGeneralizedUnaryEncodedNumber a pos val).1 pos
        (genunaryBucket val / 64 + 1) =
        some (val,
          (genunaryBucket val + 1) + (_genunary_start + genunaryBucket val * _genunary_step)) := by
  obtain ⟨r1, r2, r3, r4⟩ := genunarySearch_spec val 0 _genunary_start
  have hgw : (genunarySearch val 0 _genunary_start).2.2 =
      _genunary_start + genunaryBucket val * _genunary_step := by
    simp only [_genunary_start, _genunary_step, genunaryBucket] at *
    omega
  have e1 : (setGeneralizedUnaryEncodedNumber a pos val).1 =
      setDecodedValue (setUnaryEncodedNumber a pos (genunaryBucket val)).1
        (pos + (genunaryBucket val + 1)) (genunarySearch val 0 _genunary_start).2.2
        (genunaryResidual val) := rfl
  have e2 : (setGeneralizedUnaryEncodedNumber a pos val).2 =
      genunaryBucket val + 1 + (genunarySearch val 0 _genunary_start).2.2 := rfl
  have hbits : ∀ i, i < genunaryBucket val →
      (setGeneralizedUnaryEncodedNumber a pos val).1 (pos + i) = false := by
    intro i hi
    rw [e1, setDecodedValue_frame _ _ _ _ _ (by omega), setUnary_apply,
        if_pos ⟨by omega, by omega⟩]
  have hterm : (setGeneralizedUnaryEncodedNumber a pos val).1 (pos + genunaryBucket val) = true := by
    rw [e1, setDecodedValue_frame _ _ _ _ _ (by omega), setUnary_apply,
        if_neg (by omega), if_pos rfl]
  have r3' : genunaryResidual val < 2 ^ (genunarySearch val 0 _genunary_start).2.2 := r3
  have hfield : getDecodedValue (setGeneralizedUnaryEncodedNumber a pos val).1
      (pos + (genunaryBucket val + 1)) (genunarySearch val 0 _genunary_start).2.2 =
      genunaryResidual val := by
    rw [e1, getDecodedValue_setDecodedValue _ _ _ _ r3']
  refine ⟨by rw [e2, hgw], hbits, hterm, by rw [← hgw]; exact hfield, ?_⟩
  rw [getGenunary_of_code _ pos (genunaryBucket val) _ hbits hterm (by omega)]
  rw [← hgw, hfield]
  have hval : genunaryAdd (genunaryResidual val) (genunaryBucket val)
      (genunarySearch val 0 _genunary_start).2.2 = val := r4
  rw [hval]

/-- Witness for C2 at `val = 5` (bucket `m = 0`, width 3). -/
theorem C2_genunary_roundtrip_witness :
    (_genunary_start + genunaryBucket 5 * _genunary_step ≤ 64) ∧
      getGeneralizedUnaryEncodedNumber (setGeneralizedUnaryEncodedNumber (fun _ => false) 0 5).1
          0 (genunaryBucket 5 / 64 + 1) =
        some (5, (genunaryBucket 5 + 1) + (_genunary_start + genunaryBucket 5 * _genunary_step)) := by
  have h5 : genunarySearch 5 0 _genunary_start = (5, 0, 3) := by
    rw [genunarySearch]
    norm_num [_genunary_start]
  have hb : genunaryBucket 5 = 0 := by rw [genunaryBucket, h5]
  have hcond : _genunary_start + genunaryBucket 5 * _genunary_step ≤ 64 := by
    rw [hb]
    decide
  exact ⟨hcond, (C2_genunary_roundtrip 5 0 (fun _ => false) hcond).2.2.2.2⟩

/-!  # Fibonacci coder  -/

theorem fibPair_bounds (n : Nat) : 1 ≤ (fibPair n).1 ∧ (fibPair n).1 < (fibPair n).2 := by
  induction n with
  | zero => simp [fibPair]
  | succ n ih =>
    rw [fibPair]
    exact ⟨by omega, by omega⟩

theorem fibonacciValues_pos (n : Nat) : 1 ≤ fibonacciValues n := (fibPair_bounds n).1

theorem fibonacciValues_lt_succ (n : Nat) : fibonacciValues n < fibonacciValues (n + 1) := by
  have h := (fibPair_bounds n).2
  show (fibPair n).1 < (fibPair (n + 1)).1
  rw [fibPair]
  exact h

theorem fibonacciValues_le (m n : Nat) (h : m ≤ n) :
    fibonacciValues m ≤ fibonacciValues n := by
  induction n with
  | zero =>
    have : m = 0 := by omega
    simp [this]
  | succ n ih =>
    rcases Nat.lt_or_ge m (n + 1) with h1 | h1
    · exact Nat.le_trans (ih (by omega)) (Nat.le_of_lt (fibonacciValues_lt_succ n))
    · have : m = n + 1 := by omega
      simp [this]

theorem fibonacciValues_add (n : Nat) :
    fibonacciValues (n + 2) = fibonacciValues (n + 1) + fibonacciValues n := by
  show (fibPair (n + 2)).1 = (fibPair (n + 1)).1 + (fibPair n).1
  rw [fibPair, fibPair]
  simp [fibPair]
  omega

theorem fibonacciValues_succ_le (n : Nat) :
    fibonacciValues (n + 1) ≤ 2 * fibonacciValues n := by
  cases n with
  | zero => decide
  | succ n =>
    rw [fibonacciValues_add]
    have h1 := fibonacciValues_lt_succ n
    omega

theorem fibPartialSum_congr (s t : Nat → Bool) (k : Nat) (h : ∀ i, i < k → s i = t i) :
    fibPartialSum s k = fibPartialSum t k := by
  induction k with
  | zero => rfl
  | succ k ih =>
    rw [fibPartialSum, fibPartialSum, ih (fun i hi => h i (by omega)), h k (by omega)]

theorem fibPartialSum_stable (s : Nat → Bool) (k1 k2 : Nat) (h : k1 ≤ k2)
    (hz : ∀ i, k1 ≤ i → s i = false) : fibPartialSum s k2 = fibPartialSum s k1 := by
  induction k2 with
  | zero =>
    have : k1 = 0 := by omega
    rw [this]
  | succ k2 ih =>
    rcases Nat.lt_or_ge k1 (k2 + 1) with h1 | h1
    · rw [fibPartialSum, hz k2 (by omega), ih (by omega)]
      simp
    · have : k1 = k2 + 1 := by omega
      rw [this]

theorem fibLoop_spec (fib : Nat) : ∀ val, val < fibonacciValues fib →
    (∀ i, fib ≤ i → (fibLoop val fib).2.1 i = false)
    ∧ fibPartialSum (fibLoop val fib).2.1 fib = val
    ∧ (∀ i, (fibLoop val fib).2.1 i = true → fibonacciValues i ≤ val)
    ∧ (∀ i, ¬((fibLoop val fib).2.1 i = true ∧ (fibLoop val fib).2.1 (i + 1) = true))
    ∧ (fibLoop val fib).2.2 ≤ fib
    ∧ (1 ≤ val →
        1 ≤ (fibLoop val fib).2.2
        ∧ (fibLoop val fib).2.1 ((fibLoop val fib).2.2 - 1) = true
        ∧ (∀ i, (fibLoop val fib).2.2 ≤ i → (fibLoop val fib).2.1 i = false)) := by
  induction fib with
  | zero =>
    intro val hval
    have hv0 : val = 0 := by
      have : fibonacciValues 0 = 1 := rfl
      omega
    subst hv0
    have hb : fibLoop 0 0 = (0, fun _ => false, 0) := rfl
    refine ⟨fun i _ => rfl, rfl, ?_, ?_, ?_, fun h => absurd h (by omega)⟩
    · intro i h
      rw [hb] at h
      simp at h
    · intro i h
      obtain ⟨h1, h2⟩ := h
      rw [hb] at h1
      simp at h1
    · exact Nat.le_refl 0
  | succ fib ih =>
    intro val hval
    have hres : fibLoop val (fib + 1) =
        if fibonacciValues fib ≤ val then
          ((fibLoop (val - fibonacciValues fib) fib).1,
           fun i => if i = fib then true
                    else (fibLoop (val - fibonacciValues fib) fib).2.1 i,
           fib + 1)
        else fibLoop val fib := rfl
    by_cases hsel : fibonacciValues fib ≤ val
    · rw [if_pos hsel] at hres
      have hfv1 : 1 ≤ fibonacciValues fib := fibonacciValues_pos fib
      have h2m : fibonacciValues (fib + 1) ≤ 2 * fibonacciValues fib :=
        fibonacciValues_succ_le fib
      have hv' : val - fibonacciValues fib < fibonacciValues fib := by omega
      obtain ⟨i1, i2, i3, i4, i5, i6⟩ := ih (val - fibonacciValues fib) hv'
      have hsel1 : ∀ i, (fibLoop val (fib + 1)).2.1 i =
          if i = fib then true else (fibLoop (val - fibonacciValues fib) fib).2.1 i := by
        intro i
        rw [hres]
      have hfm : (fibLoop val (fib + 1)).2.2 = fib + 1 := by rw [hres]
      have hseam : 1 ≤ fib → (fibLoop (val - fibonacciValues fib) fib).2.1 (fib - 1) = false := by
        intro hfib
        by_contra hc
        have hc' : (fibLoop (val - fibonacciValues fib) fib).2.1 (fib - 1) = true := by
          cases hx : (fibLoop (val - fibonacciValues fib) fib).2.1 (fib - 1)
          · exact absurd hx hc
          · rfl
        have h3 := i3 (fib - 1) hc'
        have hrecur : fibonacciValues (fib + 1) =
            fibonacciValues fib + fibonacciValues (fib - 1) := by
          have e : fib + 1 = (fib - 1) + 2 := by omega
          have e2 : fib = (fib - 1) + 1 := by omega
          rw [e, fibonacciValues_add, ← e2]
        omega
      have htop : (fibLoop val (fib + 1)).2.1 fib = true := by
        rw [hsel1 fib, if_pos rfl]
      refine ⟨?_, ?_, ?_, ?_, by omega, ?_⟩
      · intro i hi
        rw [hsel1 i, if_neg (by omega)]
        exact i1 i (by omega)
      · have hstep : fibPartialSum (fibLoop val (fib + 1)).2.1 (fib + 1) =
            fibPartialSum (fibLoop val (fib + 1)).2.1 fib +
              (if (fibLoop val (fib + 1)).2.1 fib then fibonacciValues fib else 0) := rfl
        have hcongr : fibPartialSum (fibLoop val (fib + 1)).2.1 fib =
            fibPartialSum (fibLoop (val - fibonacciValues fib) fib).2.1 fib :=
          fibPartialSum_congr _ _ fib
            (fun i hi => by rw [hsel1 i, if_neg (by omega)])
        rw [hstep, htop, hcongr, i2]
        simp
        omega
      · intro i hi
        rw [hsel1 i] at hi
        by_cases hif : i = fib
        · subst hif
          exact hsel
        · rw [if_neg hif] at hi
          have := i3 i hi
          omega
      · intro i hi
        obtain ⟨ha, hb⟩ := hi
        rw [hsel1 i] at ha
        rw [hsel1 (i + 1)] at hb
        by_cases hif : i = fib
        · subst hif
          rw [if_neg (by omega)] at hb
          have := i1 (i + 1) (by omega)
          rw [this] at hb
          exact absurd hb (by simp)
        · rw [if_neg hif] at ha
          by_cases hif2 : i + 1 = fib
          · have hfib1 : 1 ≤ fib := by omega
            have := hseam hfib1
            have he : i = fib - 1 := by omega
            rw [he] at ha
            rw [this] at ha
            exact absurd ha (by simp)
          · rw [if_neg hif2] at hb
            exact i4 i ⟨ha, hb⟩
      · intro _
        refine ⟨by omega, ?_, ?_⟩
        · rw [hfm]
          simpa using htop
        · intro i hi
          rw [hfm] at hi
          rw [hsel1 i, if_neg (by omega)]
          exact i1 i (by omega)
    · rw [if_neg hsel] at hres
      have hv2 : val < fibonacciValues fib := by omega
      obtain ⟨i1, i2, i3, i4, i5, i6⟩ := ih val hv2
      rw [hres]
      refine ⟨fun i hi => i1 i (by omega), ?_, i3, i4, by omega, i6⟩
      have hstep : fibPartialSum (fibLoop val fib).2.1 (fib + 1) =
          fibPartialSum (fibLoop val fib).2.1 fib +
            (if (fibLoop val fib).2.1 fib then fibonacciValues fib else 0) := rfl
      rw [hstep, i1 fib (by omega), i2]
      simp

theorem setFib_apply (val pos : Nat) (a : BitArr) (j : Nat)
    (hj : j < (fibLoop ((val + 1) % 2 ^ 64) fibonacciValuesLen).2.2 + 1) :
    (setFibonacciEncodedNumber a pos val).1 (pos + j) =
      fibStream (fibLoop ((val + 1) % 2 ^ 64) fibonacciValuesLen).2.1
        (fibLoop ((val + 1) % 2 ^ 64) fibonacciValuesLen).2.2 j := by
  have e1 : (setFibonacciEncodedNumber a pos val).1 =
      setDecodedValue a pos ((fibLoop ((val + 1) % 2 ^ 64) fibonacciValuesLen).2.2 + 1)
        (getDecodedValue
          (fibStream (fibLoop ((val + 1) % 2 ^ 64) fibonacciValuesLen).2.1
            (fibLoop ((val + 1) % 2 ^ 64) fibonacciValuesLen).2.2)
          0 ((fibLoop ((val + 1) % 2 ^ 64) fibonacciValuesLen).2.2 + 1)) := rfl
  rw [e1, setDecodedValue_in _ _ _ _ _ hj,
      testBit_getDecodedValue _ _ _ _ hj, Nat.zero_add]

theorem getFibLoop_spec (a : BitArr) (pos : Nat) (s : Nat → Bool) (hi : Nat)
    (hread : ∀ j, j ≤ hi + 1 → a (pos + j) = fibStream s (hi + 1) j)
    (hnoadj : ∀ i, ¬(s i = true ∧ s (i + 1) = true))
    (hshi : s hi = true) :
    ∀ fuel k, k ≤ hi → hi - k < fuel →
      getFibLoop a (pos + k + 2) (fibStream s (hi + 1) k) (fibStream s (hi + 1) (k + 1))
          (fibPartialSum s k) k fuel = some (fibPartialSum s hi, hi) := by
  intro fuel
  induction fuel with
  | zero => omega
  | succ f ih =>
    intro k hk hf
    rcases Nat.eq_or_lt_of_le hk with heq | hlt
    · subst heq
      have h1 : fibStream s (k + 1) k = true := by
        show (if k = k + 1 ∧ 1 ≤ k + 1 then true else s k) = true
        rw [if_neg (by omega)]
        exact hshi
      have h2 : fibStream s (k + 1) (k + 1) = true := by
        show (if k + 1 = k + 1 ∧ 1 ≤ k + 1 then true else s (k + 1)) = true
        rw [if_pos ⟨rfl, by omega⟩]
      rw [h1, h2]
      simp [getFibLoop]
    · have e1 : fibStream s (hi + 1) k = s k := by
        show (if k = hi + 1 ∧ 1 ≤ hi + 1 then true else s k) = s k
        rw [if_neg (by omega)]
      have e2 : fibStream s (hi + 1) (k + 1) = s (k + 1) := by
        show (if k + 1 = hi + 1 ∧ 1 ≤ hi + 1 then true else s (k + 1)) = s (k + 1)
        rw [if_neg (by omega)]
      have hcond : (fibStream s (hi + 1) k && fibStream s (hi + 1) (k + 1)) = false := by
        rw [e1, e2]
        have := hnoadj k
        cases hsk : s k <;> cases hsk1 : s (k + 1) <;> simp_all
      have hunf : getFibLoop a (pos + k + 2) (fibStream s (hi + 1) k)
          (fibStream s (hi + 1) (k + 1)) (fibPartialSum s k) k (f + 1) =
          getFibLoop a (pos + k + 2 + 1) (fibStream s (hi + 1) (k + 1)) (a (pos + k + 2))
            (if fibStream s (hi + 1) k then fibPartialSum s k + fibonacciValues k
             else fibPartialSum s k) (k + 1) f := by
        rw [getFibLoop, hcond]
        simp
      rw [hunf]
      have hval : (if fibStream s (hi + 1) k then fibPartialSum s k + fibonacciValues k
          else fibPartialSum s k) = fibPartialSum s (k + 1) := by
        have hS : fibPartialSum s (k + 1) =
            fibPartialSum s k + (if s k then fibonacciValues k else 0) := rfl
        rw [e1, hS]
        cases hsk : s k <;> simp
      have hrd : a (pos + k + 2) = fibStream s (hi + 1) (k + 2) := by
        have := hread (k + 2) (by omega)
        rw [show pos + (k + 2) = pos + k + 2 by omega] at this
        exact this
      rw [hval, hrd, show pos + k + 2 + 1 = pos + (k + 1) + 2 by omega]
      exact ih (k + 1) (by omega) (by omega)

/-- C5 fails on the code at `val = 2^64 - 1`: the `uint64` bias `val++`
wraps to 0, the greedy loop selects nothing (`fibmax` stays 0), and the
encoder emits a single **zero** bit of size 1 — not a Zeckendorf code
terminated by two one-bits, whose size would be at least 2 — and decoding
the result finds no terminator at all.  The biased value `2^64` itself is
representable by the 92-entry table (`2^64 < table[90] + table[91]`), so
the claim's hypothesis does not exclude this input. -/
theorem C5_counterexample :
    (setFibonacciEncodedNumber (fun _ => false) 0 (2 ^ 64 - 1)).2 = 1
    ∧ (setFibonacciEncodedNumber (fun _ => false) 0 (2 ^ 64 - 1)).1 0 = false
    ∧ getFibonacciEncodedNumber
        (setFibonacciEncodedNumber (fun _ => false) 0 (2 ^ 64 - 1)).1 0 92 = none :=
  ⟨by decide, by decide, by decide⟩

/-- C5 amended: for every `val` with `val + 1 < 2^64` — excluding exactly
the wrapping input `val = 2^64 - 1` of the counterexample; such a biased
value is automatically representable by the 92-entry table since
`2^64 < table[90] + table[91]` — `setFibonacciEncodedNumber` writes the
greedy Zeckendorf decomposition of `val + 1` terminated by two consecutive
one-bits and reports size = highest selected index + 2, and
`getFibonacciEncodedNumber` at the same offset returns exactly `val` with
the same size.  `fibonacci(0)` (biased value 1 = table[0]) is the instance
`val = 0`: one selected bit plus the terminator, size 2. -/
theorem C5_fibonacci_roundtrip_amended (val pos : Nat) (a : BitArr)
    (h : val + 1 < 2 ^ 64) :
    (setFibonacciEncodedNumber a pos val).2 = fibHigh (val + 1) + 2
    ∧ fibSel (val + 1) (fibHigh (val + 1)) = true
    ∧ fibPartialSum (fibSel (val + 1)) (fibHigh (val + 1) + 1) = val + 1
    ∧ (∀ j, j ≤ fibHigh (val + 1) →
        (setFibonacciEncodedNumber a pos val).1 (pos + j) = fibSel (val + 1) j)
    ∧ (setFibonacciEncodedNumber a pos val).1 (pos + (fibHigh (val + 1) + 1)) = true
    ∧ getFibonacciEncodedNumber (setFibonacciEncodedNumber a pos val).1 pos 92 =
        some (val, fibHigh (val + 1) + 2) := by
  have hw : (val + 1) % 2 ^ 64 = val + 1 := Nat.mod_eq_of_lt h
  have hrepr : val + 1 < fibonacciValues 90 + fibonacciValues 91 := by
    have hge : 18446744073709551616 ≤ fibonacciValues 90 + fibonacciValues 91 := by decide
    have h' := h
    rw [two_pow_64_eq] at h'
    omega
  have hlt : val + 1 < fibonacciValues 92 := by
    have e := fibonacciValues_add 90
    norm_num at e
    omega
  obtain ⟨p1, p2, p3, p4, p5, p6⟩ := fibLoop_spec 92 (val + 1) hlt
  obtain ⟨q1, q2, q3⟩ := p6 (by omega)
  have hself : fibSel (val + 1) = (fibLoop (val + 1) fibonacciValuesLen).2.1 := rfl
  have hFMdef : (fibLoop (val + 1) fibonacciValuesLen).2.2 = fibHigh (val + 1) + 1 := by
    show (fibLoop (val + 1) 92).2.2 = (fibLoop (val + 1) 92).2.2 - 1 + 1
    omega
  have hsum : fibPartialSum (fibSel (val + 1)) (fibHigh (val + 1) + 1) = val + 1 := by
    rw [hself, ← hFMdef]
    rw [fibPartialSum_stable _ ((fibLoop (val + 1) 92).2.2) 92 (by omega) q3] at p2
    exact p2
  have hhiv : fibHigh (val + 1) + 1 = (fibLoop (val + 1) fibonacciValuesLen).2.2 := hFMdef.symm
  have hbits : ∀ j, j ≤ fibHigh (val + 1) + 1 →
      (setFibonacciEncodedNumber a pos val).1 (pos + j) =
        fibStream (fibSel (val + 1)) (fibHigh (val + 1) + 1) j := by
    intro j hj
    have happ := setFib_apply val pos a j (by rw [hw, hFMdef]; omega)
    rw [hw] at happ
    rw [happ, ← hself, ← hhiv]
  have hshi : fibSel (val + 1) (fibHigh (val + 1)) = true := by
    rw [hself]
    show (fibLoop (val + 1) 92).2.1 ((fibLoop (val + 1) 92).2.2 - 1) = true
    exact q2
  have hterm : (setFibonacciEncodedNumber a pos val).1 (pos + (fibHigh (val + 1) + 1)) = true := by
    rw [hbits _ (by omega)]
    show (if fibHigh (val + 1) + 1 = fibHigh (val + 1) + 1 ∧ 1 ≤ fibHigh (val + 1) + 1
          then true
          else fibSel (val + 1) (fibHigh (val + 1) + 1)) = true
    rw [if_pos ⟨rfl, by omega⟩]
  have hesiz : (setFibonacciEncodedNumber a pos val).2 =
      (fibLoop (val + 1) fibonacciValuesLen).2.2 + 1 := by
    have e0 : (setFibonacciEncodedNumber a pos val).2 =
        (fibLoop ((val + 1) % 2 ^ 64) fibonacciValuesLen).2.2 + 1 := rfl
    rw [e0, hw]
  refine ⟨by rw [hesiz, hFMdef], hshi, hsum, ?_, hterm, ?_⟩
  · intro j hj
    rw [hbits j (by omega)]
    show (if j = fibHigh (val + 1) + 1 ∧ 1 ≤ fibHigh (val + 1) + 1 then true
          else fibSel (val + 1) j) = fibSel (val + 1) j
    rw [if_neg (by omega)]
  · have hloop := getFibLoop_spec (setFibonacciEncodedNumber a pos val).1 pos
      (fibSel (val + 1)) (fibHigh (val + 1)) hbits
      (by rw [hself]; exact p4) hshi 92 0 (by omega)
      (by
        have h92 : (fibLoop (val + 1) 92).2.2 ≤ 92 := p5
        have hfh : fibHigh (val + 1) = (fibLoop (val + 1) 92).2.2 - 1 := rfl
        omega)
    have hstart : getFibonacciEncodedNumber (setFibonacciEncodedNumber a pos val).1 pos 92 =
        match getFibLoop (setFibonacciEncodedNumber a pos val).1 (pos + 2)
            ((setFibonacciEncodedNumber a pos val).1 pos)
            ((setFibonacciEncodedNumber a pos val).1 (pos + 1)) 0 0 92 with
        | none => none
        | some (v, fib) => some (v + fibonacciValues fib - 1, fib + 2) := rfl
    have hb0 : (setFibonacciEncodedNumber a pos val).1 pos =
        fibStream (fibSel (val + 1)) (fibHigh (val + 1) + 1) 0 := by
      have := hbits 0 (by omega)
      rw [Nat.add_zero] at this
      exact this
    have hb1 : (setFibonacciEncodedNumber a pos val).1 (pos + 1) =
        fibStream (fibSel (val + 1)) (fibHigh (val + 1) + 1) 1 :=
      hbits 1 (by omega)
    rw [show pos + 0 + 2 = pos + 2 by omega] at hloop
    simp only [fibPartialSum, Nat.zero_add] at hloop
    have hlast : fibPartialSum (fibSel (val + 1)) (fibHigh (val + 1)) +
        fibonacciValues (fibHigh (val + 1)) = val + 1 := by
      have hS : fibPartialSum (fibSel (val + 1)) (fibHigh (val + 1) + 1) =
          fibPartialSum (fibSel (val + 1)) (fibHigh (val + 1)) +
            (if fibSel (val + 1) (fibHigh (val + 1)) then
              fibonacciValues (fibHigh (val + 1)) else 0) := rfl
      rw [hS, hshi] at hsum
      simpa using hsum
    have hfinal : getFibonacciEncodedNumber (setFibonacciEncodedNumber a pos val).1 pos 92 =
        some (fibPartialSum (fibSel (val + 1)) (fibHigh (val + 1)) +
                fibonacciValues (fibHigh (val + 1)) - 1,
              fibHigh (val + 1) + 2) := by
      rw [hstart, hb0, hb1, hloop]
    rw [hfinal, hlast]
    simp

/-- Witness for the amended C5 at `val = 0`: biased value 1 = table[0],
size 2. -/
theorem C5_fibonacci_roundtrip_amended_witness :
    (0 + 1 < 2 ^ 64) ∧
      getFibonacciEncodedNumber (setFibonacciEncodedNumber (fun _ => false) 0 0).1 0 92 =
        some (0, fibHigh (0 + 1) + 2) :=
  ⟨by decide, (C5_fibonacci_roundtrip_amended 0 0 (fun _ => false) (by decide)).2.2.2.2.2⟩

/-- C7: for every `val ≤ 10000`, the bit pattern written by
`setFibonacciEncodedNumber`, excluding its final terminator bit, never has
two consecutive one-bits (Zeckendorf property of the greedy decomposition):
only the final pair (highest selected bit, terminator) is adjacent. -/
theorem C7_zeckendorf_no_adjacent (val pos : Nat) (a : BitArr) (h : val ≤ 10000) :
    ∀ j, j + 1 ≤ fibHigh (val + 1) →
      ¬((setFibonacciEncodedNumber a pos val).1 (pos + j) = true ∧
        (setFibonacciEncodedNumber a pos val).1 (pos + (j + 1)) = true) := by
  have hlt : val + 1 < fibonacciValues 92 := by
    have h19 : 10001 < fibonacciValues 19 := by decide
    have h90 := fibonacciValues_le 19 92 (by omega)
    omega
  have hw : (val + 1) % 2 ^ 64 = val + 1 := by
    apply Nat.mod_eq_of_lt
    rw [two_pow_64_eq]
    omega
  obtain ⟨p1, p2, p3, p4, p5, p6⟩ := fibLoop_spec 92 (val + 1) hlt
  obtain ⟨q1, q2, q3⟩ := p6 (by omega)
  intro j hj hcontra
  obtain ⟨ha, hb⟩ := hcontra
  have hFM : (fibLoop (val + 1) fibonacciValuesLen).2.2 = fibHigh (val + 1) + 1 := by
    show (fibLoop (val + 1) 92).2.2 = (fibLoop (val + 1) 92).2.2 - 1 + 1
    omega
  have hba : (setFibonacciEncodedNumber a pos val).1 (pos + j) =
      (fibLoop (val + 1) fibonacciValuesLen).2.1 j := by
    have happ := setFib_apply val pos a j (by rw [hw, hFM]; omega)
    rw [hw] at happ
    rw [happ]
    show (if j = (fibLoop (val + 1) fibonacciValuesLen).2.2
            ∧ 1 ≤ (fibLoop (val + 1) fibonacciValuesLen).2.2 then true
          else (fibLoop (val + 1) fibonacciValuesLen).2.1 j) = _
    rw [if_neg (by omega)]
  have hbb : (setFibonacciEncodedNumber a pos val).1 (pos + (j + 1)) =
      (fibLoop (val + 1) fibonacciValuesLen).2.1 (j + 1) := by
    have happ := setFib_apply val pos a (j + 1) (by rw [hw, hFM]; omega)
    rw [hw] at happ
    rw [happ]
    show (if j + 1 = (fibLoop (val + 1) fibonacciValuesLen).2.2
            ∧ 1 ≤ (fibLoop (val + 1) fibonacciValuesLen).2.2 then true
          else (fibLoop (val + 1) fibonacciValuesLen).2.1 (j + 1)) = _
    rw [if_neg (by omega)]
  rw [hba] at ha
  rw [hbb] at hb
  exact p4 j ⟨ha, hb⟩

/-- Witness for C7 at `val = 4`, adjacent pair `(1, 2)` inside the pattern. -/
theorem C7_zeckendorf_no_adjacent_witness :
    (4 ≤ 10000 ∧ 1 + 1 ≤ fibHigh (4 + 1)) ∧
      ¬((setFibonacciEncodedNumber (fun _ => false) 0 4).1 (0 + 1) = true ∧
        (setFibonacciEncodedNumber (fun _ => false) 0 4).1 (0 + (1 + 1)) = true) :=
  ⟨⟨by decide, by decide⟩,
   C7_zeckendorf_no_adjacent 4 0 (fun _ => false) (by decide) 1 (by decide)⟩

/-!  # Frame properties (C9)  -/

theorem setUnary_frame (a : BitArr) (pos val i : Nat)
    (h : i < pos ∨ pos + (setUnaryEncodedNumber a pos val).2 ≤ i) :
    (setUnaryEncodedNumber a pos val).1 i = a i := by
  rw [setUnary_siz] at h
  rw [setUnary_apply, if_neg (by omega), if_neg (by omega)]

theorem setGenunary_frame (a : BitArr) (pos val i : Nat)
    (h : i < pos ∨ pos + (setGeneralizedUnaryEncodedNumber a pos val).2 ≤ i) :
    (setGeneralizedUnaryEncodedNumber a pos val).1 i = a i := by
  have e2 : (setGeneralizedUnaryEncodedNumber a pos val).2 =
      genunaryBucket val + 1 + (genunarySearch val 0 _genunary_start).2.2 := rfl
  rw [e2] at h
  have e1 : (setGeneralizedUnaryEncodedNumber a pos val).1 =
      setDecodedValue (setUnaryEncodedNumber a pos (genunaryBucket val)).1
        (pos + (genunaryBucket val + 1)) (genunarySearch val 0 _genunary_start).2.2
        (genunaryResidual val) := rfl
  rw [e1, setDecodedValue_frame _ _ _ _ _ (by omega)]
  exact setUnary_frame a pos (genunaryBucket val) i (by rw [setUnary_siz]; omega)

theorem setGamma_frame (a : BitArr) (pos val i : Nat)
    (h : i < pos ∨ pos + (setEliasGammaEncodedNumber a pos val).2 ≤ i) :
    (setEliasGammaEncodedNumber a pos val).1 i = a i := by
  have e2 : (setEliasGammaEncodedNumber a pos val).2 =
      (logBaseTwo64 val + 1) + logBaseTwo64 val := rfl
  rw [e2] at h
  have e1 : (setEliasGammaEncodedNumber a pos val).1 =
      setDecodedValue (setUnaryEncodedNumber a pos (logBaseTwo64 val)).1
        (pos + (logBaseTwo64 val + 1)) (logBaseTwo64 val) val := rfl
  rw [e1, setDecodedValue_frame _ _ _ _ _ (by omega)]
  exact setUnary_frame a pos (logBaseTwo64 val) i (by rw [setUnary_siz]; omega)

theorem setDelta_frame (a : BitArr) (pos val i : Nat) (h1 : 1 ≤ val) (h2 : val < 2 ^ 64)
    (h : i < pos ∨ pos + (setEliasDeltaEncodedNumber a pos val).2 ≤ i) :
    (setEliasDeltaEncodedNumber a pos val).1 i = a i := by
  obtain ⟨hb1, hb2, hb3⟩ := logBaseTwo64_spec val h1
  have h64 : logBaseTwo64 val ≤ 64 := (logBaseTwo64_le_iff val 64).2 h2
  have hbw : (logBaseTwo64 val + (2 ^ 64 - 1)) % 2 ^ 64 = logBaseTwo64 val - 1 :=
    uint64_sub_one _ hb1 (by rw [two_pow_64_eq]; omega)
  have hLL : logBaseTwo64 (logBaseTwo64 val) ≤ 7 := by
    apply (logBaseTwo64_le_iff _ 7).2
    have h128 : (2 : Nat) ^ 7 = 128 := by norm_num
    omega
  have egs : (setEliasGammaEncodedNumber a pos (logBaseTwo64 val)).2 =
      (logBaseTwo64 (logBaseTwo64 val) + 1) + logBaseTwo64 (logBaseTwo64 val) := rfl
  have e2 : (setEliasDeltaEncodedNumber a pos val).2 =
      (setEliasGammaEncodedNumber a pos (logBaseTwo64 val)).2 + (logBaseTwo64 val - 1) := by
    have e0 : (setEliasDeltaEncodedNumber a pos val).2 =
        ((setEliasGammaEncodedNumber a pos (logBaseTwo64 val)).2 +
          (logBaseTwo64 val + (2 ^ 64 - 1)) % 2 ^ 64) % 2 ^ 64 := rfl
    rw [e0, hbw]
    apply Nat.mod_eq_of_lt
    rw [egs, two_pow_64_eq]
    omega
  rw [e2] at h
  have e1 : (setEliasDeltaEncodedNumber a pos val).1 =
      setDecodedValue (setEliasGammaEncodedNumber a pos (logBaseTwo64 val)).1
        (pos + (setEliasGammaEncodedNumber a pos (logBaseTwo64 val)).2)
        (logBaseTwo64 val - 1) val := by
    have e0 : (setEliasDeltaEncodedNumber a pos val).1 =
        setDecodedValue (setEliasGammaEncodedNumber a pos (logBaseTwo64 val)).1
          (pos + (setEliasGammaEncodedNumber a pos (logBaseTwo64 val)).2)
          ((logBaseTwo64 val + (2 ^ 64 - 1)) % 2 ^ 64) val := rfl
    rw [e0, hbw]
  rw [e1, setDecodedValue_frame _ _ _ _ _ (by omega)]
  exact setGamma_frame a pos (logBaseTwo64 val) i (by omega)

theorem setFib_frame (a : BitArr) (pos val i : Nat)
    (h : i < pos ∨ pos + (setFibonacciEncodedNumber a pos val).2 ≤ i) :
    (setFibonacciEncodedNumber a pos val).1 i = a i := by
  have e2 : (setFibonacciEncodedNumber a pos val).2 =
      (fibLoop ((val + 1) % 2 ^ 64) fibonacciValuesLen).2.2 + 1 := rfl
  rw [e2] at h
  have e1 : (setFibonacciEncodedNumber a pos val).1 =
      setDecodedValue a pos ((fibLoop ((val + 1) % 2 ^ 64) fibonacciValuesLen).2.2 + 1)
        (getDecodedValue
          (fibStream (fibLoop ((val + 1) % 2 ^ 64) fibonacciValuesLen).2.1
            (fibLoop ((val + 1) % 2 ^ 64) fibonacciValuesLen).2.2)
          0 ((fibLoop ((val + 1) % 2 ^ 64) fibonacciValuesLen).2.2 + 1)) := rfl
  rw [e1, setDecodedValue_frame _ _ _ _ _ (by omega)]

theorem getUnaryLoopR_reads (a : BitArr) (fuel : Nat) : ∀ pos acc v s rs,
    getUnaryLoopR a pos acc fuel = some (v, s, rs) →
    acc ≤ v ∧ s = v + 1 ∧ ∀ q, q ∈ rs → pos ≤ q.1 ∧ q.1 + q.2 ≤ pos + (v - acc) + 64 := by
  induction fuel with
  | zero =>
    intro pos acc v s rs h
    simp [getUnaryLoopR] at h
  | succ f ih =>
    intro pos acc v s rs h
    by_cases henc : getDecodedValue a pos 64 = 0
    · have hunf : getUnaryLoopR a pos acc (f + 1) =
          match getUnaryLoopR a (pos + 64) (acc + 64) f with
          | none => none
          | some r => some (r.1, r.2.1, (pos, 64) :: r.2.2) := by
        rw [getUnaryLoopR, if_pos henc]
      rw [hunf] at h
      cases hrec : getUnaryLoopR a (pos + 64) (acc + 64) f with
      | none =>
        rw [hrec] at h
        simp at h
      | some r =>
        rw [hrec] at h
        simp only [Option.some.injEq] at h
        injection h with h1 h23
        injection h23 with h2 h3
        obtain ⟨hacc, hs, hq⟩ := ih (pos + 64) (acc + 64) r.1 r.2.1 r.2.2 (by
          rw [hrec])
        subst h1
        subst h2
        subst h3
        refine ⟨by omega, by omega, ?_⟩
        intro q hqin
        rcases List.mem_cons.1 hqin with hq1 | hq2
        · subst hq1
          simp
        · have := hq q hq2
          omega
    · have hunf : getUnaryLoopR a pos acc (f + 1) =
          some (acc + (64 - logBaseTwo64 (getDecodedValue a pos 64)),
                (acc + (64 - logBaseTwo64 (getDecodedValue a pos 64)) + 1,
                 [(pos, 64)])) := by
        rw [getUnaryLoopR, if_neg henc]
      rw [hunf] at h
      simp only [Option.some.injEq] at h
      injection h with h1 h23
      injection h23 with h2 h3
      subst h1
      subst h2
      subst h3
      refine ⟨by omega, by omega, ?_⟩
      intro q hqin
      rcases List.mem_cons.1 hqin with hq1 | hq2
      · subst hq1
        simp
      · simp at hq2

theorem getUnaryR_reads (a : BitArr) (pos fuel v s : Nat) (rs : List (Nat × Nat))
    (h : getUnaryEncodedNumberR a pos fuel = some (v, s, rs)) :
    ∀ q, q ∈ rs → pos ≤ q.1 ∧ q.1 + q.2 ≤ pos + s + 63 := by
  obtain ⟨h1, h2, h3⟩ := getUnaryLoopR_reads a fuel pos 0 v s rs h
  intro q hq
  have := h3 q hq
  omega

theorem getUnaryR_siz (a : BitArr) (pos fuel v s : Nat) (rs : List (Nat × Nat))
    (h : getUnaryEncodedNumberR a pos fuel = some (v, s, rs)) : s = v + 1 :=
  (getUnaryLoopR_reads a fuel pos 0 v s rs h).2.1

theorem getGenunaryR_reads (a : BitArr) (pos fuel v s : Nat) (rs : List (Nat × Nat))
    (h : getGeneralizedUnaryEncodedNumberR a pos fuel = some (v, s, rs)) :
    ∀ q, q ∈ rs → pos ≤ q.1 ∧ q.1 + q.2 ≤ pos + s + 63 := by
  rw [getGeneralizedUnaryEncodedNumberR] at h
  cases hu : getUnaryEncodedNumberR a pos fuel with
  | none =>
    rw [hu] at h
    simp at h
  | some u =>
    obtain ⟨m, s1, rs0⟩ := u
    rw [hu] at h
    simp only [Option.some.injEq] at h
    injection h with h1 h23
    injection h23 with h2 h3
    subst h1
    subst h2
    subst h3
    have hsz := getUnaryR_siz a pos fuel m s1 rs0 hu
    have hrd := getUnaryR_reads a pos fuel m s1 rs0 hu
    intro q hq
    rcases List.mem_append.1 hq with hq1 | hq2
    · have := hrd q hq1
      omega
    · simp at hq2
      subst hq2
      simp
      omega

theorem getGammaR_reads (a : BitArr) (pos fuel v s : Nat) (rs : List (Nat × Nat))
    (h : getEliasGammaEncodedNumberR a pos fuel = some (v, s, rs)) :
    ∀ q, q ∈ rs → pos ≤ q.1 ∧ q.1 + q.2 ≤ pos + s + 63 := by
  rw [getEliasGammaEncodedNumberR] at h
  cases hu : getUnaryEncodedNumberR a pos fuel with
  | none =>
    rw [hu] at h
    simp at h
  | some u =>
    obtain ⟨b, s1, rs0⟩ := u
    rw [hu] at h
    simp only [Option.some.injEq] at h
    injection h with h1 h23
    injection h23 with h2 h3
    subst h1
    subst h2
    subst h3
    have hsz := getUnaryR_siz a pos fuel b s1 rs0 hu
    have hrd := getUnaryR_reads a pos fuel b s1 rs0 hu
    intro q hq
    rcases List.mem_append.1 hq with hq1 | hq2
    · have := hrd q hq1
      omega
    · simp at hq2
      subst hq2
      simp
      omega

theorem getGammaR_siz (a : BitArr) (pos fuel g s1 : Nat) (rs0 : List (Nat × Nat))
    (h : getEliasGammaEncodedNumberR a pos fuel = some (g, s1, rs0)) : 1 ≤ s1 := by
  rw [getEliasGammaEncodedNumberR] at h
  cases hu : getUnaryEncodedNumberR a pos fuel with
  | none =>
    rw [hu] at h
    simp at h
  | some u =>
    obtain ⟨b, su, rsu⟩ := u
    rw [hu] at h
    simp only [Option.some.injEq] at h
    injection h with h1 h23
    injection h23 with h2 h3
    have hsz := getUnaryR_siz a pos fuel b su rsu hu
    omega

theorem getDeltaR_reads (a : BitArr) (pos fuel g s1 : Nat) (rs0 : List (Nat × Nat))
    (hg : getEliasGammaEncodedNumberR a pos fuel = some (g, s1, rs0))
    (hg1 : 1 ≤ g) (hnw : s1 + (g - 1) < 2 ^ 64) :
    ∀ v s rs, getEliasDeltaEncodedNumberR a pos fuel = some (v, s, rs) →
      ∀ q, q ∈ rs → pos ≤ q.1 ∧ q.1 + q.2 ≤ pos + s + 63 := by
  intro v s rs h
  rw [getEliasDeltaEncodedNumberR, hg] at h
  have hs1 := getGammaR_siz a pos fuel g s1 rs0 hg
  have hglt : g < 2 ^ 64 := by
    rw [two_pow_64_eq] at hnw ⊢
    omega
  have hbw : (g + (2 ^ 64 - 1)) % 2 ^ 64 = g - 1 := uint64_sub_one g hg1 hglt
  have h' : some (2 ^ ((g + (2 ^ 64 - 1)) % 2 ^ 64) |||
                    getDecodedValue a (pos + s1) ((g + (2 ^ 64 - 1)) % 2 ^ 64),
                  (s1 + (g + (2 ^ 64 - 1)) % 2 ^ 64) % 2 ^ 64,
                  rs0 ++ [(pos + s1, (g + (2 ^ 64 - 1)) % 2 ^ 64)]) =
      some (v, s, rs) := h
  rw [hbw, Nat.mod_eq_of_lt hnw] at h'
  simp only [Option.some.injEq] at h'
  injection h' with h1 h23
  injection h23 with h2 h3
  subst h2
  subst h3
  have hrd := getGammaR_reads a pos fuel g s1 rs0 hg
  intro q hq
  rcases List.mem_append.1 hq with hq1 | hq2
  · have := hrd q hq1
    omega
  · simp at hq2
    subst hq2
    simp
    omega

theorem getFibLoopR_reads (a : BitArr) (fuel : Nat) :
    ∀ p ob nb v0 fib0 v fe rs, getFibLoopR a p ob nb v0 fib0 fuel = some (v, fe, rs) →
      fib0 ≤ fe ∧ ∀ q, q ∈ rs → p ≤ q.1 ∧ q.1 + q.2 ≤ p + (fe - fib0) := by
  induction fuel with
  | zero =>
    intro p ob nb v0 fib0 v fe rs h
    simp [getFibLoopR] at h
  | succ f ih =>
    intro p ob nb v0 fib0 v fe rs h
    by_cases hc : (ob && nb) = true
    · have hunf : getFibLoopR a p ob nb v0 fib0 (f + 1) = some (v0, fib0, []) := by
        rw [getFibLoopR, if_pos hc]
      rw [hunf] at h
      simp only [Option.some.injEq] at h
      injection h with h1 h23
      injection h23 with h2 h3
      subst h2
      subst h3
      refine ⟨Nat.le_refl _, ?_⟩
      intro q hq
      simp at hq
    · have hunf : getFibLoopR a p ob nb v0 fib0 (f + 1) =
          match getFibLoopR a (p + 1) nb (a p)
              (if ob then v0 + fibonacciValues fib0 else v0) (fib0 + 1) f with
          | none => none
          | some r => some (r.1, r.2.1, (p, 1) :: r.2.2) := by
        rw [getFibLoopR, if_neg hc]
      rw [hunf] at h
      cases hrec : getFibLoopR a (p + 1) nb (a p)
          (if ob then v0 + fibonacciValues fib0 else v0) (fib0 + 1) f with
      | none =>
        rw [hrec] at h
        simp at h
      | some r =>
        rw [hrec] at h
        simp only [Option.some.injEq] at h
        injection h with h1 h23
        injection h23 with h2 h3
        subst h1
        subst h2
        subst h3
        obtain ⟨hfe, hq⟩ := ih (p + 1) nb (a p) _ (fib0 + 1) r.1 r.2.1 r.2.2 hrec
        refine ⟨by omega, ?_⟩
        intro q hqin
        rcases List.mem_cons.1 hqin with hq1 | hq2
        · subst hq1
          simp
          omega
        · have := hq q hq2
          omega

theorem getFibR_reads (a : BitArr) (pos fuel v s : Nat) (rs : List (Nat × Nat))
    (h : getFibonacciEncodedNumberR a pos fuel = some (v, s, rs)) :
    ∀ q, q ∈ rs → pos ≤ q.1 ∧ q.1 + q.2 ≤ pos + s := by
  rw [getFibonacciEncodedNumberR] at h
  cases hl : getFibLoopR a (pos + 2) (a pos) (a (pos + 1)) 0 0 fuel with
  | none =>
    rw [hl] at h
    simp at h
  | some r =>
    obtain ⟨v0, fe, rs0⟩ := r
    rw [hl] at h
    simp only [Option.some.injEq] at h
    injection h with h1 h23
    injection h23 with h2 h3
    subst h2
    subst h3
    obtain ⟨hfe, hq⟩ := getFibLoopR_reads a fuel (pos + 2) (a pos) (a (pos + 1)) 0 0 v0 fe rs0 hl
    intro q hqin
    rcases List.mem_cons.1 hqin with hq1 | hqin2
    · subst hq1
      simp
    · rcases List.mem_cons.1 hqin2 with hq2 | hq3
      · subst hq2
        simp
        omega
      · have := hq q hq3
        omega

/-- C9 fails on the code for decode reads: on the array whose bit 0 is a one
(the unary code for 0, of size 1, followed by arbitrary data — here all
ones), `getUnaryEncodedNumber` reports size 1 but its scan reads the whole
64-bit window `[0, 64)`, 63 bits beyond `[pos, pos + size) = [0, 1)`. -/
theorem C9_counterexample :
    getUnaryEncodedNumberR (fun _ => true) 0 1 = some (0, 1, [(0, 64)]) ∧ 0 + 1 < 0 + 64 := by
  constructor
  · decide
  · decide

/-- C9 amended: every encode call writes no bit outside `[pos, pos + size)`
— for Elias delta only when `1 ≤ val < 2^64`: at `val = 0` the uint64
`b - 1` wraps and the encoder writes a `2^64 - 1`-wide mantissa field;
every decode call reads only bit fields contained in
`[pos, pos + size + 63)` — for Elias delta only when the gamma stage
returns a marker `b ≥ 1` and `s1 + (b - 1) < 2^64`: at marker `0` the
wrapped uint64 `b - 1` makes the source request a `2^64 - 1`-wide read.
The unary-scan-based decoders (unary, generalized unary, gamma, delta) may
read up to 63 bits beyond their own code because they always read whole
64-bit windows, while the Fibonacci decoder reads exactly within
`[pos, pos + size)`. -/
theorem C9_frame_amended :
    (∀ (a : BitArr) (pos val i : Nat),
        i < pos ∨ pos + (setUnaryEncodedNumber a pos val).2 ≤ i →
        (setUnaryEncodedNumber a pos val).1 i = a i)
    ∧ (∀ (a : BitArr) (pos val i : Nat),
        i < pos ∨ pos + (setGeneralizedUnaryEncodedNumber a pos val).2 ≤ i →
        (setGeneralizedUnaryEncodedNumber a pos val).1 i = a i)
    ∧ (∀ (a : BitArr) (pos val i : Nat),
        i < pos ∨ pos + (setEliasGammaEncodedNumber a pos val).2 ≤ i →
        (setEliasGammaEncodedNumber a pos val).1 i = a i)
    ∧ (∀ (a : BitArr) (pos val i : Nat), 1 ≤ val → val < 2 ^ 64 →
        i < pos ∨ pos + (setEliasDeltaEncodedNumber a pos val).2 ≤ i →
        (setEliasDeltaEncodedNumber a pos val).1 i = a i)
    ∧ (∀ (a : BitArr) (pos val i : Nat),
        i < pos ∨ pos + (setFibonacciEncodedNumber a pos val).2 ≤ i →
        (setFibonacciEncodedNumber a pos val).1 i = a i)
    ∧ (∀ (a : BitArr) (pos fuel v s : Nat) (rs : List (Nat × Nat)),
        getUnaryEncodedNumberR a pos fuel = some (v, s, rs) →
        ∀ q, q ∈ rs → pos ≤ q.1 ∧ q.1 + q.2 ≤ pos + s + 63)
    ∧ (∀ (a : BitArr) (pos fuel v s : Nat) (rs : List (Nat × Nat)),
        getGeneralizedUnaryEncodedNumberR a pos fuel = some (v, s, rs) →
        ∀ q, q ∈ rs → pos ≤ q.1 ∧ q.1 + q.2 ≤ pos + s + 63)
    ∧ (∀ (a : BitArr) (pos fuel v s : Nat) (rs : List (Nat × Nat)),
        getEliasGammaEncodedNumberR a pos fuel = some (v, s, rs) →
        ∀ q, q ∈ rs → pos ≤ q.1 ∧ q.1 + q.2 ≤ pos + s + 63)
    ∧ (∀ (a : BitArr) (pos fuel g s1 : Nat) (rs0 : List (Nat × Nat)),
        getEliasGammaEncodedNumberR a pos fuel = some (g, s1, rs0) →
        1 ≤ g → s1 + (g - 1) < 2 ^ 64 →
        ∀ v s rs, getEliasDeltaEncodedNumberR a pos fuel = some (v, s, rs) →
        ∀ q, q ∈ rs → pos ≤ q.1 ∧ q.1 + q.2 ≤ pos + s + 63)
    ∧ (∀ (a : BitArr) (pos fuel v s : Nat) (rs : List (Nat × Nat)),
        getFibonacciEncodedNumberR a pos fuel = some (v, s, rs) →
        ∀ q, q ∈ rs → pos ≤ q.1 ∧ q.1 + q.2 ≤ pos + s) :=
  ⟨setUnary_frame, setGenunary_frame, setGamma_frame, setDelta_frame, setFib_frame,
   fun a pos fuel v s rs h => getUnaryR_reads a pos fuel v s rs h,
   fun a pos fuel v s rs h => getGenunaryR_reads a pos fuel v s rs h,
   fun a pos fuel v s rs h => getGammaR_reads a pos fuel v s rs h,
   fun a pos fuel g s1 rs0 hg hg1 hnw => getDeltaR_reads a pos fuel g s1 rs0 hg hg1 hnw,
   fun a pos fuel v s rs h => getFibR_reads a pos fuel v s rs h⟩

/-- Witness for the amended C9: one concrete instance per conjunct — each
encoder leaves bit 0 unchanged when writing at offset 5, and each
instrumented decoder's logged reads satisfy the stated bound on the all-ones
array at offset 0. -/
theorem C9_frame_amended_witness :
    (0 < 5 ∧ (setUnaryEncodedNumber (fun _ => false) 5 0).1 0 = false)
    ∧ (setGeneralizedUnaryEncodedNumber (fun _ => false) 5 0).1 0 = false
    ∧ (setEliasGammaEncodedNumber (fun _ => false) 5 1).1 0 = false
    ∧ ((1 : Nat) ≤ 1 ∧ (1 : Nat) < 2 ^ 64
        ∧ (setEliasDeltaEncodedNumber (fun _ => false) 5 1).1 0 = false)
    ∧ (setFibonacciEncodedNumber (fun _ => false) 5 0).1 0 = false
    ∧ (getUnaryEncodedNumberR (fun _ => true) 0 1 = some (0, 1, [(0, 64)])
        ∧ 0 ≤ 0 ∧ 0 + 64 ≤ 0 + 1 + 63)
    ∧ (getGeneralizedUnaryEncodedNumberR (fun _ => true) 0 1 = some (7, 4, [(0, 64), (1, 3)])
        ∧ 0 ≤ 1 ∧ 1 + 3 ≤ 0 + 4 + 63)
    ∧ (getEliasGammaEncodedNumberR (fun _ => true) 0 1 = some (0, 1, [(0, 64), (1, 0)])
        ∧ 0 ≤ 1 ∧ 1 + 0 ≤ 0 + 1 + 63)
    ∧ (getEliasGammaEncodedNumberR (setEliasDeltaEncodedNumber (fun _ => false) 0 5).1 0 1 =
          some (3, 5, [(0, 64), (3, 2)])
        ∧ getEliasDeltaEncodedNumberR (setEliasDeltaEncodedNumber (fun _ => false) 0 5).1 0 1 =
          some (5, 7, [(0, 64), (3, 2), (5, 2)])
        ∧ 0 ≤ 5 ∧ 5 + 2 ≤ 0 + 7 + 63)
    ∧ (getFibonacciEncodedNumberR (fun _ => true) 0 1 = some (0, 2, [(0, 1), (1, 1)])
        ∧ 0 ≤ 1 ∧ 1 + 1 ≤ 0 + 2) :=
  ⟨⟨by decide, C9_frame_amended.1 (fun _ => false) 5 0 0 (Or.inl (by decide))⟩,
   C9_frame_amended.2.1 (fun _ => false) 5 0 0 (Or.inl (by decide)),
   C9_frame_amended.2.2.1 (fun _ => false) 5 1 0 (Or.inl (by decide)),
   ⟨by decide, by decide,
    C9_frame_amended.2.2.2.1 (fun _ => false) 5 1 0 (by decide) (by decide)
      (Or.inl (by decide))⟩,
   C9_frame_amended.2.2.2.2.1 (fun _ => false) 5 0 0 (Or.inl (by decide)),
   ⟨by decide, C9_frame_amended.2.2.2.2.2.1 (fun _ => true) 0 1 0 1 [(0, 64)] (by decide)
      (0, 64) (by decide)⟩,
   ⟨by decide, C9_frame_amended.2.2.2.2.2.2.1 (fun _ => true) 0 1 7 4 [(0, 64), (1, 3)]
      (by decide) (1, 3) (by decide)⟩,
   ⟨by decide, C9_frame_amended.2.2.2.2.2.2.2.1 (fun _ => true) 0 1 0 1 [(0, 64), (1, 0)]
      (by decide) (1, 0) (by decide)⟩,
   ⟨by decide, by decide,
    C9_frame_amended.2.2.2.2.2.2.2.2.1 (setEliasDeltaEncodedNumber (fun _ => false) 0 5).1 0 1
      3 5 [(0, 64), (3, 2)] (by decide) (by decide) (by decide) 5 7 [(0, 64), (3, 2), (5, 2)]
      (by decide) (5, 2) (by decide)⟩,
   ⟨by decide, C9_frame_amended.2.2.2.2.2.2.2.2.2 (fun _ => true) 0 1 0 2 [(0, 1), (1, 1)]
      (by decide) (1, 1) (by decide)⟩⟩

/-- Witness for C1 at `n = 4` (the spec's `unary(4) = 00001`, size 5). -/
theorem C1_unary_encode_decode_witness :
    ((2 : Nat) < 4 ∧ (setUnaryEncodedNumber (fun _ => false) 0 4).1 (0 + 2) = false)
    ∧ (setUnaryEncodedNumber (fun _ => false) 0 4).1 (0 + 4) = true
    ∧ (setUnaryEncodedNumber (fun _ => false) 0 4).2 = 4 + 1
    ∧ getUnaryEncodedNumber (setUnaryEncodedNumber (fun _ => false) 0 4).1 0 (4 / 64 + 1) =
        some (4, 4 + 1) :=
  ⟨⟨by decide, (C1_unary_encode_decode 4 0 (fun _ => false)).2.1 2 (by decide)⟩,
   (C1_unary_encode_decode 4 0 (fun _ => false)).2.2.1,
   (C1_unary_encode_decode 4 0 (fun _ => false)).1,
   (C1_unary_encode_decode 4 0 (fun _ => false)).2.2.2.2⟩

/-- Witness for C10 at `pos = 0` on the all-false array. -/
theorem C10_gamma_zero_witness :
    (setEliasGammaEncodedNumber (fun _ => false) 0 0).2 = 1
    ∧ ((3 : Nat) ≠ 0 ∧ (setEliasGammaEncodedNumber (fun _ => false) 0 0).1 3 = false)
    ∧ getEliasGammaEncodedNumber (setEliasGammaEncodedNumber (fun _ => false) 0 0).1 0 1 =
        some (0, 1) :=
  ⟨(C10_gamma_zero 0 (fun _ => false)).1,
   ⟨by decide, (C10_gamma_zero 0 (fun _ => false)).2.2.1 3 (by decide)⟩,
   (C10_gamma_zero 0 (fun _ => false)).2.2.2⟩
